import Mathlib

/-!
Verification development for the `savefile` Go package: a directory-scoped
save-file manager.  We shallowly embed the timestamp filename scheme, the
directory scanner, the retention policy and the manager operations
(`New`, `NewLimit`, `Save`, `DeleteOld`, `getOldestFile`, `LoadLatest`)
as pure Lean functions over an explicit filesystem state, and prove the
spec's claims about them.
-/

namespace SaveFile

/-- Calendar timestamp as embedded in a save filename (`YYYYMMDD_HHMMSS`). -/
structure Ts where
  y : Nat
  mo : Nat
  da : Nat
  h : Nat
  mi : Nat
  se : Nat
deriving DecidableEq, Repr

/-- Gregorian leap-year rule, as used by Go `time` for day-range checks. -/
def isLeap (y : Nat) : Bool :=
  y % 4 == 0 && (y % 100 != 0 || y % 400 == 0)

/-- Days in a month, as used by Go `time.Parse` for its day-range check. -/
def daysIn (y m : Nat) : Nat :=
  if m == 2 then (if isLeap y then 29 else 28)
  else if m == 4 || m == 6 || m == 9 || m == 11 then 30
  else 31

/-- Linear key of a timestamp: lexicographic packing of its fields.  For
field-valid timestamps this order coincides with Go's `Time.Before/After`
(chronological) order, so the embedding compares keys wherever the source
compares times. -/
def Ts.key (t : Ts) : Nat :=
  ((((t.y * 100 + t.mo) * 100 + t.da) * 100 + t.h) * 100 + t.mi) * 100 + t.se

/-- Field validity: exactly the range checks Go `time.Parse` performs for
the `20060102_150405` layout (plus the 4-digit year bound implied by the
fixed-width layout). -/
def Ts.valid (t : Ts) : Prop :=
  t.y ≤ 9999 ∧ 1 ≤ t.mo ∧ t.mo ≤ 12 ∧ 1 ≤ t.da ∧ t.da ≤ daysIn t.y t.mo ∧
    t.h ≤ 23 ∧ t.mi ≤ 59 ∧ t.se ≤ 59

instance : DecidablePred Ts.valid := fun t => by
  unfold Ts.valid; infer_instance

/-- The zero `time.Time` value: January 1, year 1, 00:00:00. -/
def zeroTs : Ts := ⟨1, 1, 1, 0, 0, 0⟩

/-- ASCII digit character for `n ≤ 9`. -/
def digitChar (n : Nat) : Char := Char.ofNat (48 + n)

/-- Value of an ASCII digit character, `none` for non-digits. -/
def digitVal (c : Char) : Option Nat :=
  if 48 ≤ c.toNat ∧ c.toNat ≤ 57 then some (c.toNat - 48) else none

/-- Two-digit decimal number from two characters. -/
def d2 (a b : Char) : Option Nat := do
  let x ← digitVal a
  let y ← digitVal b
  pure (10 * x + y)

/-- Four-digit decimal number from four characters. -/
def d4 (a b c d : Char) : Option Nat := do
  let x ← digitVal a
  let y ← digitVal b
  let z ← digitVal c
  let w ← digitVal d
  pure (1000 * x + 100 * y + 10 * z + w)

/-- Zero-padded two-digit rendering, as Go `Format` does for `01`-style verbs. -/
def pad2 (n : Nat) : List Char := [digitChar (n / 10), digitChar (n % 10)]

/-- Zero-padded four-digit rendering, as Go `Format` does for `2006`. -/
def pad4 (n : Nat) : List Char :=
  [digitChar (n / 1000), digitChar (n / 100 % 10), digitChar (n / 10 % 10), digitChar (n % 10)]

/-- `time.Format("20060102_150405")`: the 15-character timestamp window. -/
def formatTs (t : Ts) : List Char :=
  pad4 t.y ++ pad2 t.mo ++ pad2 t.da ++ ['_'] ++ pad2 t.h ++ pad2 t.mi ++ pad2 t.se

/-- `time.Parse("20060102_150405", w)`: succeeds exactly on a 15-character
window of digits with an underscore at offset 8 whose fields pass Go's
range checks. -/
def parseWindow : List Char → Option Ts
  | [y1, y2, y3, y4, a1, a2, b1, b2, u, h1, h2, c1, c2, e1, e2] =>
    if u = '_' then
      match d4 y1 y2 y3 y4, d2 a1 a2, d2 b1 b2, d2 h1 h2, d2 c1 c2, d2 e1 e2 with
      | some yy, some mm, some dd, some hh, some mi, some ss =>
        if 1 ≤ mm ∧ mm ≤ 12 ∧ 1 ≤ dd ∧ dd ≤ daysIn yy mm ∧ hh ≤ 23 ∧ mi ≤ 59 ∧ ss ≤ 59
        then some ⟨yy, mm, dd, hh, mi, ss⟩ else none
      | _, _, _, _, _, _ => none
    else none
  | _ => none

/-- Filename validation of the source (`getOldestFile` / `LoadLatest` loops):
reject names shorter than 20 characters, else parse the 15-character window
at offset 5 (`f.Name()[5:20]`).  Nothing else about the name is checked. -/
def nameTs (nm : String) : Option Ts :=
  if nm.data.length < 20 then none
  else parseWindow ((nm.data.drop 5).take 15)

/-- Parsed timestamp key of a filename, `none` if the name does not match. -/
def validKey (nm : String) : Option Nat := (nameTs nm).map Ts.key

/-- Error values surfaced by the manager (Go `error` results, classified). -/
inductive Err where
  | readDirFailed
  | removeFailed
  | openFailed
  | noSaveFiles
  | noValidSaveFiles
  | encodeFailed
  | decodeFailed
  | invalidLimit
  | absFailed
  | mkdirFailed
deriving DecidableEq, Repr

/-- A directory entry: owning directory (absolute path), base name, whether
it is a regular file (`f.Type().IsRegular()`), and its byte content. -/
structure FSFile where
  fdir : String
  name : String
  isRegular : Bool
  content : List Nat
deriving DecidableEq, Repr

/-- Filesystem state: the entries, plus which directories fail to list and
which paths fail to remove (modelling `os.ReadDir` / `os.Remove` errors). -/
structure FS where
  files : List FSFile
  unreadable : List String
  unremovable : List (String × String)
deriving DecidableEq, Repr

/-- Entries of directory `d`. -/
def listDir (fs : FS) (d : String) : List FSFile :=
  fs.files.filter (fun f => f.fdir == d)

/-- `os.ReadDir(d)`. -/
def readDir (fs : FS) (d : String) : Except Err (List FSFile) :=
  if d ∈ fs.unreadable then .error .readDirFailed else .ok (listDir fs d)

/-- `os.Remove` of the path `d/n`: fails if the path does not exist or
removal is not permitted. -/
def removeFile (fs : FS) (d n : String) : Except Err FS :=
  if fs.files.any (fun f => f.fdir == d && f.name == n) then
    if (d, n) ∈ fs.unremovable then .error .removeFailed
    else .ok { fs with files := fs.files.filter (fun f => !(f.fdir == d && f.name == n)) }
  else .error .removeFailed

/-- `os.Create` of the path `d/n`: truncating an existing entry rewrites its
content in place (without changing its kind); otherwise a new regular file
is appended. -/
def createFile (fs : FS) (d n : String) (bs : List Nat) : FS :=
  if fs.files.any (fun f => f.fdir == d && f.name == n) then
    { fs with files := fs.files.map (fun f =>
        if f.fdir == d && f.name == n then { f with content := bs } else f) }
  else
    { fs with files := fs.files ++ [⟨d, n, true, bs⟩] }

/-- `os.Open` of the path `d/n` followed by reading the whole content. -/
def openFile (fs : FS) (d n : String) : Except Err (List Nat) :=
  match fs.files.find? (fun f => f.fdir == d && f.name == n) with
  | some f => .ok f.content
  | none => .error .openFailed

/-- Codec kind, for the extension switch in `fileExt`. -/
inductive CodecKind where
  | json
  | gob
  | other
deriving DecidableEq, Repr

/-- An `EncoderDecoder`: fallible encode/decode of a value to/from bytes. -/
structure Codec (α : Type) where
  kind : CodecKind
  enc : α → Option (List Nat)
  dec : List Nat → Option α

/-- The `Saver` struct: directory, retention limit (`0` = unset), codec. -/
structure Saver (α : Type) where
  dir : String
  maxStoredFiles : Int
  codec : Codec α

/-- The extension switch on the codec's dynamic type. -/
def fileExt {α : Type} (s : Saver α) : String :=
  match s.codec.kind with
  | .json => ".json"
  | .gob => ".bin"
  | .other => ".dat"

/-- The filename `Save` writes at instant `now`. -/
def saveName {α : Type} (s : Saver α) (now : Ts) : String :=
  "save_" ++ String.mk (formatTs now) ++ fileExt s

/-- `New(path, codec)`: resolve the absolute path and `MkdirAll`; the two
booleans model success of those two filesystem calls. -/
def New {α : Type} (path : String) (codec : Codec α) (absOk mkdirOk : Bool) :
    Except Err (Saver α) :=
  if absOk = false then .error .absFailed
  else if mkdirOk = false then .error .mkdirFailed
  else .ok ⟨path, 0, codec⟩

/-- `NewLimit(path, codec, maxFiles)`: rejects `maxFiles < 1`, then behaves
like `New` and stores the limit. -/
def NewLimit {α : Type} (path : String) (codec : Codec α) (maxFiles : Int)
    (absOk mkdirOk : Bool) : Except Err (Saver α) :=
  if maxFiles < 1 then .error .invalidLimit
  else
    match New path codec absOk mkdirOk with
    | .error e => .error e
    | .ok sv => .ok { sv with maxStoredFiles := maxFiles }

/-- Scanner classification of one entry: skip non-regular entries, then
apply the filename scheme; `some k` means a valid save file with key `k`. -/
def validEntry (f : FSFile) : Option Nat :=
  if f.isRegular then validKey f.name else none

/-- Number of valid save files among the entries `l`. -/
def countValidL (l : List FSFile) : Nat :=
  (l.filter (fun f => (validEntry f).isSome)).length

/-- Number of valid save files in directory `d`. -/
def countValidD (fs : FS) (d : String) : Nat := countValidL (listDir fs d)

/-- The valid save files of directory `d`. -/
def validFiles (fs : FS) (d : String) : List FSFile :=
  (listDir fs d).filter (fun f => (validEntry f).isSome)

/-- One step of the `getOldestFile` scan loop.  The accumulator is
`(oldestFile, oldestTime, saveFilesCount)`; the condition mirrors
`saveFilesCount == 1 || t.Before(oldestTime)` after the increment. -/
def oldStep (acc : String × Nat × Nat) (f : FSFile) : String × Nat × Nat :=
  match validEntry f with
  | none => acc
  | some k =>
    if acc.2.2 + 1 = 1 ∨ k < acc.2.1 then (f.name, k, acc.2.2 + 1)
    else (acc.1, acc.2.1, acc.2.2 + 1)

/-- `getOldestFile(s)`: list the directory, then fold the scan loop starting
from `oldestTime := time.Now()` (`now`), empty name and zero count. -/
def getOldestFile {α : Type} (s : Saver α) (now : Ts) (fs : FS) :
    Except Err (String × Nat) :=
  match readDir fs s.dir with
  | .error e => .error e
  | .ok files =>
    let r := files.foldl oldStep ("", now.key, 0)
    .ok (r.1, r.2.2)

/-- Result of `DeleteOld`, carrying the filesystem state it left behind.
`fuelOut` marks that the loop did not finish within the given number of
iterations (the Go loop is unbounded; `fuelOut` models divergence). -/
inductive DORes where
  | ok (fs : FS)
  | err (e : Err) (fs : FS)
  | fuelOut (fs : FS)
deriving DecidableEq, Repr

/-- The filesystem state a `DeleteOld` outcome left behind. -/
def DORes.fs : DORes → FS
  | .ok fs => fs
  | .err _ fs => fs
  | .fuelOut fs => fs

/-- The limit-configured eviction loop of `DeleteOld`, one recursive call
per `for` iteration, also returning the log of deletions performed: each
entry records the filesystem state at that moment and the removed name. -/
def deleteOldLoopL {α : Type} (s : Saver α) (now : Ts) :
    Nat → FS → DORes × List (FS × String)
  | 0, fs => (.fuelOut fs, [])
  | fuel + 1, fs =>
    match getOldestFile s now fs with
    | .error e => (.err e fs, [])
    | .ok (oldest, cnt) =>
      if s.maxStoredFiles ≤ (cnt : Int) then
        if oldest = "" then deleteOldLoopL s now fuel fs
        else
          match removeFile fs s.dir oldest with
          | .error e => (.err e fs, [])
          | .ok fs' =>
            let r := deleteOldLoopL s now fuel fs'
            (r.1, (fs, oldest) :: r.2)
      else (.ok fs, [])

/-- The eviction loop without its log. -/
def deleteOldLoop {α : Type} (s : Saver α) (now : Ts) (fuel : Nat) (fs : FS) : DORes :=
  (deleteOldLoopL s now fuel fs).1

/-- `DeleteOld()`: with a limit configured, run the eviction loop; with no
limit, remove the single oldest valid file — note the source passes the bare
`oldestFile` to `os.Remove` (no `filepath.Join(s.dir, ...)`), so the removed
path is resolved against the process working directory `cwd`. -/
def DeleteOld {α : Type} (s : Saver α) (now : Ts) (cwd : String) (fuel : Nat)
    (fs : FS) : DORes :=
  if s.maxStoredFiles ≠ 0 then deleteOldLoop s now fuel fs
  else
    match getOldestFile s now fs with
    | .error e => .err e fs
    | .ok (oldest, _) =>
      if oldest = "" then .ok fs
      else
        match removeFile fs cwd oldest with
        | .error e => .err e fs
        | .ok fs' => .ok fs'

/-- Result of `Save`; `diverge` propagates a non-terminating `DeleteOld`. -/
inductive SaveRes where
  | ok (fs : FS)
  | err (e : Err) (fs : FS)
  | diverge (fs : FS)
deriving DecidableEq, Repr

/-- The filesystem state a `Save` outcome left behind. -/
def SaveRes.fs : SaveRes → FS
  | .ok fs => fs
  | .err _ fs => fs
  | .diverge fs => fs

/-- `Save(data)`: if a limit is configured, first call `DeleteOld` with its
error discarded (the source invokes `s.DeleteOld()` and ignores the result);
then create the timestamped file and encode into it.  On encode failure the
created (empty) file remains. -/
def Save {α : Type} (s : Saver α) (now : Ts) (cwd : String) (v : α) (fuel : Nat)
    (fs : FS) : SaveRes :=
  let write : FS → SaveRes := fun fs1 =>
    match s.codec.enc v with
    | some bs => .ok (createFile fs1 s.dir (saveName s now) bs)
    | none => .err .encodeFailed (createFile fs1 s.dir (saveName s now) [])
  if s.maxStoredFiles ≠ 0 then
    match DeleteOld s now cwd fuel fs with
    | .fuelOut fs1 => .diverge fs1
    | .ok fs1 => write fs1
    | .err _ fs1 => write fs1
  else write fs

/-- A sequence of `Save` calls; `some` iff every call returned `ok`. -/
def runSaves {α : Type} (s : Saver α) (cwd : String) (fuel : Nat) :
    List (Ts × α) → FS → Option FS
  | [], fs => some fs
  | p :: ps, fs =>
    match Save s p.1 cwd p.2 fuel fs with
    | .ok fs' => runSaves s cwd fuel ps fs'
    | _ => none

/-- One step of the `LoadLatest` scan loop; the accumulator is
`(mostRecentFile, mostRecentTime)` and the condition is the strict
`t.After(mostRecentTime)`. -/
def latestStep (acc : String × Nat) (f : FSFile) : String × Nat :=
  match validEntry f with
  | none => acc
  | some k => if acc.2 < k then (f.name, k) else acc

/-- `LoadLatest(target)`: empty listing is "no save files found"; an empty
selection after the scan is "no valid save files found"; otherwise open the
selected file and decode it.  The scan starts from the zero `time.Time`. -/
def LoadLatest {α : Type} (s : Saver α) (fs : FS) : Except Err α :=
  match readDir fs s.dir with
  | .error e => .error e
  | .ok files =>
    if files.length = 0 then .error .noSaveFiles
    else
      let r := files.foldl latestStep ("", zeroTs.key)
      if r.1 = "" then .error .noValidSaveFiles
      else
        match openFile fs s.dir r.1 with
        | .error e => .error e
        | .ok bs =>
          match s.codec.dec bs with
          | some v => .ok v
          | none => .error .decodeFailed

/-! ### Filename scheme lemmas -/

theorem digitVal_digitChar (k : Nat) (h : k ≤ 9) : digitVal (digitChar k) = some k := by
  interval_cases k <;> rfl

theorem d2_pad (n : Nat) (h : n ≤ 99) :
    d2 (digitChar (n / 10)) (digitChar (n % 10)) = some n := by
  unfold d2
  rw [digitVal_digitChar (n / 10) (by omega), digitVal_digitChar (n % 10) (by omega)]
  simp only [Option.bind_eq_bind, Option.some_bind, pure]
  exact congrArg some (by omega)

theorem d4_pad (n : Nat) (h : n ≤ 9999) :
    d4 (digitChar (n / 1000)) (digitChar (n / 100 % 10)) (digitChar (n / 10 % 10))
      (digitChar (n % 10)) = some n := by
  unfold d4
  rw [digitVal_digitChar (n / 1000) (by omega), digitVal_digitChar (n / 100 % 10) (by omega),
    digitVal_digitChar (n / 10 % 10) (by omega), digitVal_digitChar (n % 10) (by omega)]
  simp only [Option.bind_eq_bind, Option.some_bind, pure]
  exact congrArg some (by omega)

theorem formatTs_length (t : Ts) : (formatTs t).length = 15 := by
  simp [formatTs, pad4, pad2]

theorem daysIn_le (y m : Nat) : daysIn y m ≤ 31 := by
  unfold daysIn
  split
  · split <;> omega
  · split <;> omega

theorem parse_format (t : Ts) (h : t.valid) : parseWindow (formatTs t) = some t := by
  obtain ⟨y, mo, da, hh, mi, se⟩ := t
  obtain ⟨h1, h2, h3, h4, h5, h6, h7, h8⟩ := h
  dsimp only at h1 h2 h3 h4 h5 h6 h7 h8
  have hda : da ≤ 99 := le_trans h5 (le_trans (daysIn_le y mo) (by omega))
  show parseWindow
      [digitChar (y / 1000), digitChar (y / 100 % 10), digitChar (y / 10 % 10),
        digitChar (y % 10), digitChar (mo / 10), digitChar (mo % 10),
        digitChar (da / 10), digitChar (da % 10), '_',
        digitChar (hh / 10), digitChar (hh % 10), digitChar (mi / 10),
        digitChar (mi % 10), digitChar (se / 10), digitChar (se % 10)] = some ⟨y, mo, da, hh, mi, se⟩
  rw [parseWindow]
  rw [if_pos rfl]
  rw [d4_pad y h1, d2_pad mo (by omega), d2_pad da hda, d2_pad hh (by omega),
    d2_pad mi (by omega), d2_pad se (by omega)]
  dsimp only
  rw [if_pos ⟨h2, h3, h4, h5, h6, h7, h8⟩]

theorem saveName_data {α : Type} (s : Saver α) (t : Ts) :
    (saveName s t).data = "save_".data ++ (formatTs t ++ (fileExt s).data) := rfl

theorem validKey_saveName {α : Type} (s : Saver α) (t : Ts) (h : t.valid) :
    validKey (saveName s t) = some t.key := by
  unfold validKey nameTs
  rw [saveName_data]
  have hlen : ("save_".data ++ (formatTs t ++ (fileExt s).data)).length =
      20 + (fileExt s).data.length := by
    simp [formatTs_length]
    omega
  rw [if_neg (by omega)]
  have hd : ("save_".data ++ (formatTs t ++ (fileExt s).data)).drop 5 =
      formatTs t ++ (fileExt s).data := by
    have : ("save_".data).length = 5 := rfl
    rw [← this, List.drop_left]
  rw [hd, List.take_left' (formatTs_length t), parse_format t h]
  rfl

theorem validKey_length {nm : String} {k : Nat} (h : validKey nm = some k) :
    20 ≤ nm.data.length := by
  unfold validKey nameTs at h
  by_cases hl : nm.data.length < 20
  · rw [if_pos hl] at h; simp at h
  · omega

theorem validKey_ne_empty {nm : String} {k : Nat} (h : validKey nm = some k) : nm ≠ "" := by
  intro he
  subst he
  have := validKey_length h
  simp at this

theorem validEntry_some {f : FSFile} {k : Nat} :
    validEntry f = some k ↔ f.isRegular = true ∧ validKey f.name = some k := by
  unfold validEntry
  cases hr : f.isRegular <;> simp

/-! ### Scan fold lemmas (`getOldestFile`) -/

theorem countValidL_nil : countValidL [] = 0 := rfl

theorem countValidL_cons (f : FSFile) (l : List FSFile) :
    countValidL (f :: l) = (if (validEntry f).isSome then 1 else 0) + countValidL l := by
  unfold countValidL
  cases hv : (validEntry f).isSome <;> simp [List.filter_cons, hv, Nat.add_comm]

theorem oldStep_none (acc : String × Nat × Nat) (f : FSFile) (hv : validEntry f = none) :
    oldStep acc f = acc := by
  simp [oldStep, hv]

theorem oldStep_some (acc : String × Nat × Nat) (f : FSFile) (k : Nat)
    (hv : validEntry f = some k) :
    oldStep acc f =
      if acc.2.2 + 1 = 1 ∨ k < acc.2.1 then (f.name, k, acc.2.2 + 1)
      else (acc.1, acc.2.1, acc.2.2 + 1) := by
  simp [oldStep, hv]

theorem oldFold_count (l : List FSFile) : ∀ acc : String × Nat × Nat,
    (l.foldl oldStep acc).2.2 = acc.2.2 + countValidL l := by
  induction l with
  | nil => intro acc; simp [countValidL_nil]
  | cons f l ih =>
    intro acc
    rw [List.foldl_cons, countValidL_cons]
    cases hv : validEntry f with
    | none => rw [oldStep_none acc f hv, ih]; simp
    | some k =>
      rw [oldStep_some acc f k hv]
      split <;> rw [ih] <;> dsimp <;> omega

theorem oldFold_zero (l : List FSFile) (h : countValidL l = 0) :
    ∀ acc : String × Nat × Nat, l.foldl oldStep acc = acc := by
  induction l with
  | nil => intro acc; rfl
  | cons f l ih =>
    intro acc
    rw [countValidL_cons] at h
    rw [List.foldl_cons]
    cases hv : validEntry f with
    | none =>
      rw [oldStep_none acc f hv]
      exact ih (by rw [hv] at h; simpa using h) acc
    | some k => rw [hv] at h; simp at h

theorem oldFold_go (l : List FSFile) : ∀ acc : String × Nat × Nat, 1 ≤ acc.2.2 →
    (l.foldl oldStep acc).2.1 ≤ acc.2.1 ∧
    (∀ g ∈ l, ∀ k, validEntry g = some k → (l.foldl oldStep acc).2.1 ≤ k) ∧
    ((l.foldl oldStep acc).1 = acc.1 ∧ (l.foldl oldStep acc).2.1 = acc.2.1 ∨
      ∃ f ∈ l, validEntry f = some (l.foldl oldStep acc).2.1 ∧
        f.name = (l.foldl oldStep acc).1) := by
  induction l with
  | nil => intro acc h; exact ⟨le_refl _, by simp, Or.inl ⟨rfl, rfl⟩⟩
  | cons f l ih =>
    intro acc hacc
    rw [List.foldl_cons]
    cases hv : validEntry f with
    | none =>
      rw [oldStep_none acc f hv]
      obtain ⟨i1, i2, i3⟩ := ih acc hacc
      refine ⟨i1, ?_, ?_⟩
      · intro g hg k hk
        rcases List.mem_cons.mp hg with h | h
        · subst h; rw [hv] at hk; exact absurd hk (by simp)
        · exact i2 g h k hk
      · rcases i3 with h | ⟨f', hf', hve, hnm⟩
        · exact Or.inl h
        · exact Or.inr ⟨f', List.mem_cons_of_mem f hf', hve, hnm⟩
    | some k =>
      rw [oldStep_some acc f k hv]
      have hne : ¬(acc.2.2 + 1 = 1) := by omega
      by_cases hlt : k < acc.2.1
      · rw [if_pos (Or.inr hlt)]
        obtain ⟨i1, i2, i3⟩ := ih (f.name, k, acc.2.2 + 1) (by dsimp; omega)
        refine ⟨le_trans i1 (le_of_lt hlt), ?_, ?_⟩
        · intro g hg k' hk'
          rcases List.mem_cons.mp hg with h | h
          · subst h; rw [hv] at hk'; injection hk' with he; subst he; exact i1
          · exact i2 g h k' hk'
        · rcases i3 with ⟨e1, e2⟩ | ⟨f', hf', hve, hnm⟩
          · refine Or.inr ⟨f, List.mem_cons_self f l, ?_, ?_⟩
            · rw [e2]; exact hv
            · rw [e1]
          · exact Or.inr ⟨f', List.mem_cons_of_mem f hf', hve, hnm⟩
      · have hcond : ¬(acc.2.2 + 1 = 1 ∨ k < acc.2.1) := by
          intro hc
          rcases hc with h | h
          · exact hne h
          · exact hlt h
        rw [if_neg hcond]
        obtain ⟨i1, i2, i3⟩ := ih (acc.1, acc.2.1, acc.2.2 + 1) (by dsimp; omega)
        refine ⟨i1, ?_, ?_⟩
        · intro g hg k' hk'
          rcases List.mem_cons.mp hg with h | h
          · subst h; rw [hv] at hk'; injection hk' with he; subst he
            exact le_trans i1 (Nat.le_of_not_lt hlt)
          · exact i2 g h k' hk'
        · rcases i3 with ⟨e1, e2⟩ | ⟨f', hf', hve, hnm⟩
          · exact Or.inl ⟨e1, e2⟩
          · exact Or.inr ⟨f', List.mem_cons_of_mem f hf', hve, hnm⟩

theorem oldFold_char (l : List FSFile) (n0 : Nat) (h : 1 ≤ countValidL l) :
    ∃ f ∈ l, validEntry f = some ((l.foldl oldStep ("", n0, 0)).2.1) ∧
      f.name = (l.foldl oldStep ("", n0, 0)).1 ∧
      ∀ g ∈ l, ∀ k, validEntry g = some k → (l.foldl oldStep ("", n0, 0)).2.1 ≤ k := by
  induction l with
  | nil => simp [countValidL_nil] at h
  | cons f l ih =>
    rw [List.foldl_cons]
    cases hv : validEntry f with
    | none =>
      rw [oldStep_none _ f hv]
      rw [countValidL_cons, hv] at h
      obtain ⟨f', hf', hve, hnm, hmin⟩ := ih (by simpa using h)
      refine ⟨f', List.mem_cons_of_mem f hf', hve, hnm, ?_⟩
      intro g hg k hk
      rcases List.mem_cons.mp hg with hh | hh
      · subst hh; rw [hv] at hk; exact absurd hk (by simp)
      · exact hmin g hh k hk
    | some k =>
      rw [oldStep_some _ f k hv, if_pos (Or.inl rfl)]
      obtain ⟨i1, i2, i3⟩ := oldFold_go l (f.name, k, (0 : Nat) + 1) (by dsimp; omega)
      rcases i3 with ⟨e1, e2⟩ | ⟨f', hf', hve, hnm⟩
      · refine ⟨f, List.mem_cons_self f l, ?_, ?_, ?_⟩
        · rw [e2]; exact hv
        · rw [e1]
        · intro g hg k' hk'
          rcases List.mem_cons.mp hg with hh | hh
          · subst hh; rw [hv] at hk'; injection hk' with he; subst he; exact i1
          · exact i2 g hh k' hk'
      · refine ⟨f', List.mem_cons_of_mem f hf', hve, hnm, ?_⟩
        intro g hg k' hk'
        rcases List.mem_cons.mp hg with hh | hh
        · subst hh; rw [hv] at hk'; injection hk' with he; subst he; exact i1
        · exact i2 g hh k' hk'

/-! ### Scan fold lemmas (`LoadLatest`) -/

theorem latestStep_none (acc : String × Nat) (f : FSFile) (hv : validEntry f = none) :
    latestStep acc f = acc := by
  simp [latestStep, hv]

theorem latestStep_some (acc : String × Nat) (f : FSFile) (k : Nat)
    (hv : validEntry f = some k) :
    latestStep acc f = if acc.2 < k then (f.name, k) else acc := by
  simp [latestStep, hv]

theorem lateFold_go (l : List FSFile) : ∀ acc : String × Nat,
    acc.2 ≤ (l.foldl latestStep acc).2 ∧
    (∀ g ∈ l, ∀ k, validEntry g = some k → k ≤ (l.foldl latestStep acc).2) ∧
    (l.foldl latestStep acc = acc ∨
      ∃ f ∈ l, validEntry f = some (l.foldl latestStep acc).2 ∧
        f.name = (l.foldl latestStep acc).1 ∧ acc.2 < (l.foldl latestStep acc).2) := by
  induction l with
  | nil => intro acc; exact ⟨le_refl _, by simp, Or.inl rfl⟩
  | cons f l ih =>
    intro acc
    rw [List.foldl_cons]
    cases hv : validEntry f with
    | none =>
      rw [latestStep_none acc f hv]
      obtain ⟨i1, i2, i3⟩ := ih acc
      refine ⟨i1, ?_, ?_⟩
      · intro g hg k hk
        rcases List.mem_cons.mp hg with h | h
        · subst h; rw [hv] at hk; exact absurd hk (by simp)
        · exact i2 g h k hk
      · rcases i3 with h | ⟨f', hf', hve, hnm, hgt⟩
        · exact Or.inl h
        · exact Or.inr ⟨f', List.mem_cons_of_mem f hf', hve, hnm, hgt⟩
    | some k =>
      rw [latestStep_some acc f k hv]
      by_cases hlt : acc.2 < k
      · rw [if_pos hlt]
        obtain ⟨i1, i2, i3⟩ := ih (f.name, k)
        refine ⟨le_trans (le_of_lt hlt) i1, ?_, ?_⟩
        · intro g hg k' hk'
          rcases List.mem_cons.mp hg with h | h
          · subst h; rw [hv] at hk'; injection hk' with he; subst he; exact i1
          · exact i2 g h k' hk'
        · rcases i3 with h | ⟨f', hf', hve, hnm, hgt⟩
          · refine Or.inr ⟨f, List.mem_cons_self f l, ?_, ?_, ?_⟩
            · rw [h]; exact hv
            · rw [h]
            · rw [h]; exact hlt
          · exact Or.inr ⟨f', List.mem_cons_of_mem f hf', hve, hnm, lt_of_lt_of_le hlt i1⟩
      · rw [if_neg hlt]
        obtain ⟨i1, i2, i3⟩ := ih acc
        refine ⟨i1, ?_, ?_⟩
        · intro g hg k' hk'
          rcases List.mem_cons.mp hg with h | h
          · subst h; rw [hv] at hk'; injection hk' with he; subst he
            exact le_trans (Nat.le_of_not_lt hlt) i1
          · exact i2 g h k' hk'
        · rcases i3 with h | ⟨f', hf', hve, hnm, hgt⟩
          · exact Or.inl h
          · exact Or.inr ⟨f', List.mem_cons_of_mem f hf', hve, hnm, hgt⟩

theorem lateFold_stay (l : List FSFile) : ∀ acc : String × Nat,
    (∀ g ∈ l, ∀ k, validEntry g = some k → k ≤ acc.2) → l.foldl latestStep acc = acc := by
  induction l with
  | nil => intro acc _; rfl
  | cons f l ih =>
    intro acc h
    rw [List.foldl_cons]
    cases hv : validEntry f with
    | none =>
      rw [latestStep_none acc f hv]
      exact ih acc (fun g hg k hk => h g (List.mem_cons_of_mem f hg) k hk)
    | some k =>
      have hk := h f (List.mem_cons_self f l) k hv
      rw [latestStep_some acc f k hv, if_neg (by omega)]
      exact ih acc (fun g hg k' hk' => h g (List.mem_cons_of_mem f hg) k' hk')

theorem lateFold_max (l : List FSFile) (fq : FSFile) (kq : Nat)
    (hf : validEntry fq = some kq)
    (hmax : ∀ g ∈ l, ∀ k, validEntry g = some k → k < kq)
    (hz : zeroTs.key < kq) :
    (l ++ [fq]).foldl latestStep ("", zeroTs.key) = (fq.name, kq) := by
  rw [List.foldl_append]
  have hr2 : ((l.foldl latestStep ("", zeroTs.key)).2) < kq := by
    obtain ⟨i1, i2, i3⟩ := lateFold_go l ("", zeroTs.key)
    rcases i3 with h | ⟨f', hf', hve, hnm, hgt⟩
    · rw [h]; exact hz
    · exact hmax f' hf' _ hve
  rw [List.foldl_cons, latestStep_some _ fq kq hf, if_pos hr2]
  rfl

theorem lateFold_empty_iff (l : List FSFile) :
    (l.foldl latestStep ("", zeroTs.key)).1 = "" ↔
      ∀ g ∈ l, ∀ k, validEntry g = some k → k ≤ zeroTs.key := by
  constructor
  · intro he
    obtain ⟨i1, i2, i3⟩ := lateFold_go l ("", zeroTs.key)
    rcases i3 with h | ⟨f', hf', hve, hnm, hgt⟩
    · intro g hg k hk
      have := i2 g hg k hk
      rw [h] at this
      exact this
    · exfalso
      rw [he] at hnm
      have hvk : validKey f'.name = some (l.foldl latestStep ("", zeroTs.key)).2 :=
        (validEntry_some.mp hve).2
      exact validKey_ne_empty hvk hnm
  · intro h
    rw [lateFold_stay l ("", zeroTs.key) h]

/-! ### Filesystem operation lemmas -/

theorem filter_swap (p q : FSFile → Bool) (l : List FSFile) :
    (l.filter p).filter q = (l.filter q).filter p := by
  induction l with
  | nil => rfl
  | cons f l ih =>
    cases hp : p f <;> cases hq : q f <;> simp [List.filter_cons, hp, hq, ih]

theorem filter_dir_name (l : List FSFile) (d n : String) :
    (l.filter (fun f => !(f.fdir == d && f.name == n))).filter (fun f => f.fdir == d) =
      (l.filter (fun f => f.fdir == d)).filter (fun f => !(f.name == n)) := by
  rw [filter_swap]
  apply List.filter_congr
  intro f hf
  have hd : (f.fdir == d) = true := (List.mem_filter.mp hf).2
  rw [hd]
  cases hn : (f.name == n) <;> rfl

theorem listDir_filter_name (fs : FS) (d n : String) :
    listDir { fs with files := fs.files.filter (fun f => !(f.fdir == d && f.name == n)) } d =
      (listDir fs d).filter (fun f => !(f.name == n)) := by
  unfold listDir
  dsimp only
  exact filter_dir_name fs.files d n

theorem removeFile_ok_inv {fs : FS} {d n : String} {fs' : FS}
    (h : removeFile fs d n = .ok fs') :
    fs'.files = fs.files.filter (fun f => !(f.fdir == d && f.name == n)) ∧
    fs'.unreadable = fs.unreadable ∧ fs'.unremovable = fs.unremovable := by
  unfold removeFile at h
  split at h
  · split at h
    · exact absurd h (by simp)
    · injection h with he
      subst he
      exact ⟨rfl, rfl, rfl⟩
  · exact absurd h (by simp)

theorem removeFile_mk {fs : FS} {d n : String}
    (hp : fs.files.any (fun f => f.fdir == d && f.name == n) = true)
    (hr : (d, n) ∉ fs.unremovable) :
    removeFile fs d n =
      .ok { fs with files := fs.files.filter (fun f => !(f.fdir == d && f.name == n)) } := by
  unfold removeFile
  rw [if_pos hp, if_neg hr]

theorem createFile_fields (fs : FS) (d n : String) (bs : List Nat) :
    (createFile fs d n bs).unreadable = fs.unreadable ∧
    (createFile fs d n bs).unremovable = fs.unremovable := by
  unfold createFile
  split <;> exact ⟨rfl, rfl⟩

theorem createFile_fresh (fs : FS) (d n : String) (bs : List Nat)
    (h : ∀ f ∈ listDir fs d, f.name ≠ n) :
    createFile fs d n bs = { fs with files := fs.files ++ [⟨d, n, true, bs⟩] } := by
  unfold createFile
  rw [if_neg ?_]
  intro hc
  obtain ⟨f, hf, hb⟩ := List.any_eq_true.mp hc
  have hd : f.fdir = d := by
    have := (Bool.and_eq_true _ _).mp hb
    exact beq_iff_eq.mp this.1
  have hn : f.name = n := by
    have := (Bool.and_eq_true _ _).mp hb
    exact beq_iff_eq.mp this.2
  exact h f (List.mem_filter.mpr ⟨hf, beq_iff_eq.mpr hd⟩) hn

theorem listDir_append_file (fs : FS) (d : String) (x : FSFile) (hx : x.fdir = d) :
    listDir { fs with files := fs.files ++ [x] } d = listDir fs d ++ [x] := by
  unfold listDir
  dsimp only
  rw [List.filter_append]
  simp [hx]

theorem countValidL_append (l1 l2 : List FSFile) :
    countValidL (l1 ++ l2) = countValidL l1 + countValidL l2 := by
  unfold countValidL
  rw [List.filter_append, List.length_append]

/-! ### `getOldestFile` characterization -/

theorem getOldest_mk {α : Type} (s : Saver α) (now : Ts) (fs : FS)
    (hread : s.dir ∉ fs.unreadable) :
    getOldestFile s now fs =
      .ok (((listDir fs s.dir).foldl oldStep ("", now.key, 0)).1, countValidD fs s.dir) := by
  unfold getOldestFile readDir
  rw [if_neg hread]
  dsimp only
  rw [oldFold_count]
  dsimp only
  rw [Nat.zero_add]
  rfl

theorem getOldest_ok_inv {α : Type} {s : Saver α} {now : Ts} {fs : FS} {o : String} {cnt : Nat}
    (h : getOldestFile s now fs = .ok (o, cnt)) :
    cnt = countValidD fs s.dir ∧
    (cnt = 0 → o = "") ∧
    (1 ≤ cnt →
      ∃ f ∈ listDir fs s.dir, f.name = o ∧ ∃ kf, validEntry f = some kf ∧
        validKey o = some kf ∧
        ∀ g ∈ listDir fs s.dir, ∀ kg, validEntry g = some kg → kf ≤ kg) := by
  unfold getOldestFile at h
  cases hr : readDir fs s.dir with
  | error e => rw [hr] at h; exact absurd h (by simp)
  | ok files =>
    rw [hr] at h
    dsimp only at h
    have hfiles : files = listDir fs s.dir := by
      unfold readDir at hr
      split at hr
      · exact absurd hr (by simp)
      · injection hr with he; exact he.symm
    subst hfiles
    injection h with h1
    have ho : o = ((listDir fs s.dir).foldl oldStep ("", now.key, 0)).1 := by
      have := congrArg Prod.fst h1; exact this.symm
    have hcnt : cnt = countValidD fs s.dir := by
      have := congrArg Prod.snd h1
      dsimp at this
      rw [← this, oldFold_count]
      dsimp only
      rw [Nat.zero_add]
      rfl
    refine ⟨hcnt, ?_, ?_⟩
    · intro h0
      rw [ho, oldFold_zero (listDir fs s.dir) (by rw [hcnt] at h0; exact h0)]
    · intro h1c
      have hc1 : 1 ≤ countValidL (listDir fs s.dir) := by rw [hcnt] at h1c; exact h1c
      obtain ⟨f, hf, hve, hnm, hmin⟩ := oldFold_char (listDir fs s.dir) now.key hc1
      have hno : f.name = o := by rw [ho, hnm]
      refine ⟨f, hf, hno, _, hve, ?_, ?_⟩
      · have hvk := (validEntry_some.mp hve).2
        rw [← hno]
        exact hvk
      · intro g hg kg hkg
        exact hmin g hg kg hkg

/-! ### Counting lemmas for removal -/

theorem filter_ne_name_length (V : List FSFile) (o : String)
    (hpair : V.Pairwise (fun f g => f.name ≠ g.name))
    (t : FSFile) (ht : t ∈ V) (hto : t.name = o) :
    (V.filter (fun f => !(f.name == o))).length + 1 = V.length := by
  induction V with
  | nil => cases ht
  | cons v V ih =>
    rw [List.pairwise_cons] at hpair
    rcases List.mem_cons.mp ht with h | h
    · rw [List.filter_cons]
      have hp : (!(v.name == o)) = false := by rw [← h, hto]; simp
      rw [hp]
      simp only [Bool.false_eq_true, if_false, List.length_cons, Nat.add_right_cancel_iff]
      have hall : ∀ g ∈ V, (!(g.name == o)) = true := by
        intro g hg
        have hne := hpair.1 g hg
        rw [← h, hto] at hne
        simp [Ne.symm hne]
      rw [List.filter_eq_self.mpr hall]
    · have hvo : v.name ≠ o := by
        intro he
        exact hpair.1 t h (he.trans hto.symm)
      rw [List.filter_cons, if_pos (by simp [hvo])]
      rw [List.length_cons, List.length_cons]
      have := ih hpair.2 h
      omega

theorem filter_mem_false_length_lt (V : List FSFile) (pred : FSFile → Bool) (t : FSFile)
    (ht : t ∈ V) (hp : pred t = false) : (V.filter pred).length < V.length := by
  induction V with
  | nil => cases ht
  | cons v V ih =>
    rw [List.filter_cons]
    rcases List.mem_cons.mp ht with h | h
    · subst h
      rw [hp]
      simp only [Bool.false_eq_true, if_false, List.length_cons]
      exact Nat.lt_succ_of_le (List.length_filter_le pred V)
    · cases hpv : pred v
      · simp only [Bool.false_eq_true, if_false, List.length_cons]
        exact Nat.lt_succ_of_lt (ih h)
      · simp only [if_true, List.length_cons]
        exact Nat.succ_lt_succ (ih h)

theorem countValid_remove_exact (l : List FSFile) (o : String)
    (hpair : (l.filter (fun f => (validEntry f).isSome)).Pairwise (fun f g => f.name ≠ g.name))
    (t : FSFile) (ht : t ∈ l) (hto : t.name = o) (hval : (validEntry t).isSome = true) :
    countValidL (l.filter (fun f => !(f.name == o))) + 1 = countValidL l := by
  unfold countValidL
  rw [filter_swap]
  exact filter_ne_name_length _ o hpair t (List.mem_filter.mpr ⟨ht, hval⟩) hto

theorem countValid_remove_lt (l : List FSFile) (o : String)
    (t : FSFile) (ht : t ∈ l) (hto : t.name = o) (hval : (validEntry t).isSome = true) :
    countValidL (l.filter (fun f => !(f.name == o))) < countValidL l := by
  unfold countValidL
  rw [filter_swap]
  refine filter_mem_false_length_lt _ _ t (List.mem_filter.mpr ⟨ht, hval⟩) ?_
  rw [hto]
  simp

/-! ### Directory well-formedness -/

/-- What is true of any real directory listing: an entry whose name parses
is a regular file only if it is regular (no phantom kinds needed here), and
valid save files have pairwise distinct names.  This is the part of real
filesystem semantics (unique names per directory) the list model does not
enforce by construction. -/
def DirOk (fs : FS) (d : String) : Prop :=
  (∀ f ∈ listDir fs d, ∀ k, validKey f.name = some k → f.isRegular = true) ∧
  (validFiles fs d).Pairwise (fun f g => f.name ≠ g.name)

theorem DirOk_of_filter (fs fs' : FS) (d : String) (n : String)
    (hok : DirOk fs d)
    (hl : listDir fs' d = (listDir fs d).filter (fun f => !(f.name == n))) :
    DirOk fs' d := by
  constructor
  · intro f hf k hk
    rw [hl] at hf
    exact hok.1 f (List.mem_filter.mp hf).1 k hk
  · have : validFiles fs' d =
        (validFiles fs d).filter (fun f => !(f.name == n)) := by
      unfold validFiles
      rw [hl, filter_swap]
    rw [this]
    exact List.Pairwise.sublist (List.filter_sublist _) hok.2

theorem any_of_listDir_mem {fs : FS} {d : String} {f : FSFile} (hf : f ∈ listDir fs d)
    {n : String} (hn : f.name = n) :
    fs.files.any (fun g => g.fdir == d && g.name == n) = true := by
  rcases List.mem_filter.mp hf with ⟨hmem, hd⟩
  refine List.any_eq_true.mpr ⟨f, hmem, ?_⟩
  rw [Bool.and_eq_true]
  exact ⟨hd, beq_iff_eq.mpr hn⟩

/-! ### Eviction step and loop lemmas -/

theorem evict_once {α : Type} (s : Saver α) (now : Ts) (fs : FS)
    (hread : s.dir ∉ fs.unreadable)
    (hrem : ∀ n, (s.dir, n) ∉ fs.unremovable)
    (hok : DirOk fs s.dir)
    (hc : 1 ≤ countValidD fs s.dir) :
    ∃ o fs', getOldestFile s now fs = .ok (o, countValidD fs s.dir) ∧ o ≠ "" ∧
      removeFile fs s.dir o = .ok fs' ∧
      listDir fs' s.dir = (listDir fs s.dir).filter (fun f => !(f.name == o)) ∧
      countValidD fs' s.dir + 1 = countValidD fs s.dir ∧
      DirOk fs' s.dir ∧
      fs'.unreadable = fs.unreadable ∧ fs'.unremovable = fs.unremovable ∧
      (∀ f ∈ listDir fs' s.dir, f ∈ listDir fs s.dir) := by
  have hget := getOldest_mk s now fs hread
  set o := ((listDir fs s.dir).foldl oldStep ("", now.key, 0)).1 with ho
  obtain ⟨_, _, hmin⟩ := getOldest_ok_inv hget
  obtain ⟨f0, hf0, hnm, kf, hve, hvk, hmins⟩ := hmin hc
  have hone : o ≠ "" := validKey_ne_empty hvk
  have hany := any_of_listDir_mem hf0 hnm
  have hrm := removeFile_mk hany (hrem o)
  set fs' := { fs with files := fs.files.filter (fun f => !(f.fdir == s.dir && f.name == o)) } with hfs'
  have hld : listDir fs' s.dir = (listDir fs s.dir).filter (fun f => !(f.name == o)) :=
    listDir_filter_name fs s.dir o
  refine ⟨o, fs', hget, hone, hrm, hld, ?_, ?_, rfl, rfl, ?_⟩
  · show countValidL (listDir fs' s.dir) + 1 = countValidL (listDir fs s.dir)
    rw [hld]
    exact countValid_remove_exact (listDir fs s.dir) o hok.2 f0 hf0 hnm (by rw [hve]; rfl)
  · exact DirOk_of_filter fs fs' s.dir o hok hld
  · intro f hf
    rw [hld] at hf
    exact (List.mem_filter.mp hf).1

theorem loop_no_evict {α : Type} (s : Saver α) (Ln : Nat) (hs : s.maxStoredFiles = (Ln : Int))
    (now : Ts) (fs : FS) (fuel : Nat)
    (hread : s.dir ∉ fs.unreadable)
    (hc : countValidD fs s.dir < Ln) :
    deleteOldLoopL s now (fuel + 1) fs = (.ok fs, []) := by
  rw [deleteOldLoopL, getOldest_mk s now fs hread]
  dsimp only
  rw [hs, if_neg (by rw [Nat.cast_le]; omega)]

theorem loop_ok {α : Type} (s : Saver α) (Ln : Nat) (hs : s.maxStoredFiles = (Ln : Int))
    (hL : 1 ≤ Ln) (now : Ts) (fs : FS)
    (hread : s.dir ∉ fs.unreadable)
    (hrem : ∀ n, (s.dir, n) ∉ fs.unremovable)
    (hok : DirOk fs s.dir)
    (hc : countValidD fs s.dir ≤ Ln)
    (fuel : Nat) (hfuel : 2 ≤ fuel) :
    ∃ fs', deleteOldLoop s now fuel fs = .ok fs' ∧
      countValidD fs' s.dir = min (countValidD fs s.dir) (Ln - 1) ∧
      DirOk fs' s.dir ∧
      (∀ f ∈ listDir fs' s.dir, f ∈ listDir fs s.dir) ∧
      fs'.unreadable = fs.unreadable ∧ fs'.unremovable = fs.unremovable := by
  obtain ⟨f, rfl⟩ : ∃ f, fuel = f + 1 + 1 := ⟨fuel - 2, by omega⟩
  by_cases hlt : countValidD fs s.dir < Ln
  · refine ⟨fs, ?_, by omega, hok, fun f hf => hf, rfl, rfl⟩
    unfold deleteOldLoop
    rw [loop_no_evict s Ln hs now fs (f + 1) hread hlt]
  · have hceq : countValidD fs s.dir = Ln := by omega
    obtain ⟨o, fs1, hget, hone, hrm, hld, hcnt, hok1, hur1, hum1, hsub1⟩ :=
      evict_once s now fs hread hrem hok (by omega)
    refine ⟨fs1, ?_, by omega, hok1, hsub1, hur1, hum1⟩
    unfold deleteOldLoop
    rw [deleteOldLoopL, hget]
    dsimp only
    rw [hs, if_pos (by rw [Nat.cast_le]; omega), if_neg hone, hrm]
    dsimp only
    rw [loop_no_evict s Ln hs now fs1 f (by rw [hur1]; exact hread) (by omega)]

/-! ### Termination of the eviction loop -/

theorem loop_not_fuelOut {α : Type} (s : Saver α) (Ln : Nat)
    (hs : s.maxStoredFiles = (Ln : Int)) (hL : 1 ≤ Ln) (now : Ts) :
    ∀ c (fs : FS), countValidD fs s.dir = c → ∀ fuel, c + 1 ≤ fuel →
      ∀ fsX, deleteOldLoop s now fuel fs ≠ .fuelOut fsX := by
  intro c
  induction c using Nat.strong_induction_on with
  | _ c ih =>
    intro fs hc fuel hfuel fsX
    obtain ⟨f, rfl⟩ : ∃ f, fuel = f + 1 := ⟨fuel - 1, by omega⟩
    unfold deleteOldLoop
    rw [deleteOldLoopL]
    cases hget : getOldestFile s now fs with
    | error e => exact fun h => DORes.noConfusion h
    | ok p =>
      obtain ⟨o, cnt⟩ := p
      obtain ⟨hcnt, hzero, hpos⟩ := getOldest_ok_inv hget
      dsimp only
      by_cases hcond : s.maxStoredFiles ≤ (cnt : Int)
      · rw [if_pos hcond]
        have hcnt1 : 1 ≤ cnt := by
          rw [hs, Nat.cast_le] at hcond
          omega
        obtain ⟨f0, hf0, hnm, kf, hve, hvk, hmins⟩ := hpos hcnt1
        have hone : o ≠ "" := validKey_ne_empty hvk
        rw [if_neg hone]
        cases hrm : removeFile fs s.dir o with
        | error e => exact fun h => DORes.noConfusion h
        | ok fs1 =>
          have hld : listDir fs1 s.dir =
              (listDir fs s.dir).filter (fun f => !(f.name == o)) := by
            unfold listDir
            rw [(removeFile_ok_inv hrm).1]
            exact filter_dir_name fs.files s.dir o
          have hdec : countValidD fs1 s.dir < c := by
            have hx := countValid_remove_lt (listDir fs s.dir) o f0 hf0 hnm (by rw [hve]; rfl)
            unfold countValidD at hc ⊢
            rw [hld]
            omega
          show deleteOldLoop s now f fs1 ≠ DORes.fuelOut fsX
          exact ih (countValidD fs1 s.dir) hdec fs1 rfl f (by omega) fsX
      · rw [if_neg hcond]
        exact fun h => DORes.noConfusion h

/-! ### Every eviction removes a minimal-timestamp valid file -/

theorem log_min {α : Type} (s : Saver α) (now : Ts) : ∀ (fuel : Nat) (fs : FS)
    (p : FS × String), p ∈ (deleteOldLoopL s now fuel fs).2 →
    ∃ f ∈ listDir p.1 s.dir, f.name = p.2 ∧ ∃ kf, validEntry f = some kf ∧
      validKey p.2 = some kf ∧
      ∀ g ∈ listDir p.1 s.dir, ∀ kg, validEntry g = some kg → kf ≤ kg := by
  intro fuel
  induction fuel with
  | zero => intro fs p hp; cases hp
  | succ fuel ih =>
    intro fs p hp
    rw [deleteOldLoopL] at hp
    cases hget : getOldestFile s now fs with
    | error e => rw [hget] at hp; cases hp
    | ok q =>
      obtain ⟨o, cnt⟩ := q
      rw [hget] at hp
      dsimp only at hp
      by_cases hcond : s.maxStoredFiles ≤ (cnt : Int)
      · rw [if_pos hcond] at hp
        by_cases hone : o = ""
        · rw [if_pos hone] at hp
          exact ih fs p hp
        · rw [if_neg hone] at hp
          cases hrm : removeFile fs s.dir o with
          | error e => rw [hrm] at hp; cases hp
          | ok fs1 =>
            rw [hrm] at hp
            dsimp only at hp
            rcases List.mem_cons.mp hp with h | h
            · subst h
              obtain ⟨hcnt, hzero, hpos⟩ := getOldest_ok_inv hget
              have hcnt1 : 1 ≤ cnt := by
                rcases Nat.eq_zero_or_pos cnt with h0 | h0
                · exact absurd (hzero h0) hone
                · exact h0
              obtain ⟨f0, hf0, hnm, kf, hve, hvk, hmins⟩ := hpos hcnt1
              exact ⟨f0, hf0, hnm, kf, hve, hvk, hmins⟩
            · exact ih fs1 p h
      · rw [if_neg hcond] at hp
        cases hp

/-! ### One `Save` step -/

theorem Save_ok_of_loop {α : Type} (s : Saver α) (now : Ts) (cwd : String) (v : α)
    (fuel : Nat) (fs fs1 : FS) (bs : List Nat)
    (hL : s.maxStoredFiles ≠ 0)
    (hloop : deleteOldLoop s now fuel fs = .ok fs1)
    (henc : s.codec.enc v = some bs) :
    Save s now cwd v fuel fs = .ok (createFile fs1 s.dir (saveName s now) bs) := by
  unfold Save DeleteOld
  rw [if_pos hL, if_pos hL, hloop]
  dsimp only
  rw [henc]

theorem fresh_name {α : Type} (s : Saver α) (now : Ts) (hvalid : now.valid)
    (l : List FSFile)
    (hb : ∀ f ∈ l, ∀ k, validKey f.name = some k → k < now.key) :
    ∀ f ∈ l, f.name ≠ saveName s now := by
  intro f hf he
  have := hb f hf now.key (by rw [he]; exact validKey_saveName s now hvalid)
  omega

theorem save_step {α : Type} (s : Saver α) (Ln : Nat) (hs : s.maxStoredFiles = (Ln : Int))
    (hL : 1 ≤ Ln) (now : Ts) (cwd : String) (v : α) (bs : List Nat) (fs : FS)
    (fuel : Nat) (hfuel : 2 ≤ fuel)
    (hvalid : now.valid)
    (henc : s.codec.enc v = some bs)
    (hread : s.dir ∉ fs.unreadable)
    (hrem : ∀ n, (s.dir, n) ∉ fs.unremovable)
    (hok : DirOk fs s.dir)
    (hc : countValidD fs s.dir ≤ Ln)
    (hb : ∀ f ∈ listDir fs s.dir, ∀ k, validKey f.name = some k → k < now.key) :
    ∃ fs2, Save s now cwd v fuel fs = .ok fs2 ∧
      countValidD fs2 s.dir = min (countValidD fs s.dir + 1) Ln ∧
      DirOk fs2 s.dir ∧
      fs2.unreadable = fs.unreadable ∧ fs2.unremovable = fs.unremovable ∧
      (∀ f ∈ listDir fs2 s.dir, ∀ k, validKey f.name = some k → k ≤ now.key) := by
  obtain ⟨fs1, hloop, hcnt1, hok1, hsub1, hur1, hum1⟩ :=
    loop_ok s Ln hs hL now fs hread hrem hok hc fuel hfuel
  have hb1 : ∀ f ∈ listDir fs1 s.dir, ∀ k, validKey f.name = some k → k < now.key :=
    fun f hf k hk => hb f (hsub1 f hf) k hk
  have hfresh : ∀ f ∈ listDir fs1 s.dir, f.name ≠ saveName s now :=
    fresh_name s now hvalid _ hb1
  have hLne : s.maxStoredFiles ≠ 0 := by
    rw [hs]
    intro h0
    have : Ln = 0 := by exact_mod_cast h0
    omega
  have hsave := Save_ok_of_loop s now cwd v fuel fs fs1 bs hLne hloop henc
  have hcr := createFile_fresh fs1 s.dir (saveName s now) bs hfresh
  set nf : FSFile := ⟨s.dir, saveName s now, true, bs⟩ with hnf
  set fs2 : FS := { fs1 with files := fs1.files ++ [nf] } with hfs2
  have hld2 : listDir fs2 s.dir = listDir fs1 s.dir ++ [nf] :=
    listDir_append_file fs1 s.dir nf rfl
  have hvnew : validEntry nf = some now.key := by
    unfold validEntry
    rw [hnf]
    dsimp only
    rw [if_pos rfl]
    exact validKey_saveName s now hvalid
  refine ⟨fs2, ?_, ?_, ?_, ?_, ?_, ?_⟩
  · rw [hsave, hcr, hfs2]
  · show countValidL (listDir fs2 s.dir) = _
    rw [hld2, countValidL_append]
    have hone : countValidL [nf] = 1 := by
      unfold countValidL
      rw [List.filter_cons]
      rw [if_pos (by rw [hvnew]; rfl)]
      rfl
    rw [hone]
    have hc1 : countValidD fs1 s.dir = min (countValidD fs s.dir) (Ln - 1) := hcnt1
    unfold countValidD at hc1 ⊢
    omega
  · constructor
    · intro f hf k hk
      rw [hld2] at hf
      rcases List.mem_append.mp hf with h | h
      · exact hok1.1 f h k hk
      · rw [List.mem_singleton.mp h]
      -- goal: nf.isRegular = true
    · have hvf2 : validFiles fs2 s.dir = validFiles fs1 s.dir ++ [nf] := by
        unfold validFiles
        rw [hld2, List.filter_append]
        congr 1
        rw [List.filter_cons, if_pos (by rw [hvnew]; rfl)]
        rfl
      rw [hvf2, List.pairwise_append]
      refine ⟨hok1.2, List.pairwise_singleton _ _, ?_⟩
      intro a ha b hb'
      rw [List.mem_singleton.mp hb']
      exact hfresh a (List.mem_filter.mp ha).1
  · rw [hfs2]
    dsimp only
    exact hur1
  · rw [hfs2]
    dsimp only
    exact hum1
  · intro f hf k hk
    rw [hld2] at hf
    rcases List.mem_append.mp hf with h | h
    · exact le_of_lt (hb1 f h k hk)
    · rw [List.mem_singleton.mp h] at hk
      have : validKey nf.name = some now.key := validKey_saveName s now hvalid
      rw [this] at hk
      injection hk with he
      omega

/-! ### Sequences of saves -/

theorem rs_strong {α : Type} (s : Saver α) (cwd : String) (Ln : Nat)
    (hs : s.maxStoredFiles = (Ln : Int)) (hL : 1 ≤ Ln) (fuel : Nat) (hfuel : 2 ≤ fuel) :
    ∀ (saves : List (Ts × α)) (fs : FS),
      s.dir ∉ fs.unreadable →
      (∀ n, (s.dir, n) ∉ fs.unremovable) →
      (∀ p ∈ saves, (p.1).valid) →
      (∀ p ∈ saves, (s.codec.enc p.2).isSome = true) →
      saves.Pairwise (fun p q => (p.1).key < (q.1).key) →
      (∀ f ∈ listDir fs s.dir, ∀ k, validKey f.name = some k → ∀ p ∈ saves, k < (p.1).key) →
      DirOk fs s.dir →
      countValidD fs s.dir ≤ Ln →
      ∃ fs', runSaves s cwd fuel saves fs = some fs' ∧
        countValidD fs' s.dir = min (countValidD fs s.dir + saves.length) Ln ∧
        DirOk fs' s.dir ∧
        fs'.unreadable = fs.unreadable ∧ fs'.unremovable = fs.unremovable := by
  intro saves
  induction saves with
  | nil =>
    intro fs hread hrem _ _ _ _ hok hc
    exact ⟨fs, rfl, by simp; omega, hok, rfl, rfl⟩
  | cons p ps ih =>
    intro fs hread hrem hvalid henc hsorted hb hok hc
    obtain ⟨bs, hbs⟩ := Option.isSome_iff_exists.mp (henc p (List.mem_cons_self p ps))
    obtain ⟨fs2, hsave, hcnt2, hok2, hur2, hum2, hb2⟩ :=
      save_step s Ln hs hL p.1 cwd p.2 bs fs fuel hfuel
        (hvalid p (List.mem_cons_self p ps)) hbs hread hrem hok hc
        (fun f hf k hk => hb f hf k hk p (List.mem_cons_self p ps))
    have hps : ∀ q ∈ ps, (p.1).key < (q.1).key :=
      fun q hq => (List.pairwise_cons.mp hsorted).1 q hq
    obtain ⟨fs', hrun, hcnt', hok', hur', hum'⟩ :=
      ih fs2 (by rw [hur2]; exact hread) (by rw [hum2]; exact hrem)
        (fun q hq => hvalid q (List.mem_cons_of_mem p hq))
        (fun q hq => henc q (List.mem_cons_of_mem p hq))
        (List.pairwise_cons.mp hsorted).2
        (fun f hf k hk q hq => lt_of_le_of_lt (hb2 f hf k hk) (hps q hq))
        hok2
        (by omega)
    refine ⟨fs', ?_, ?_, hok', by rw [hur', hur2], by rw [hum', hum2]⟩
    · unfold runSaves
      rw [hsave]
      exact hrun
    · rw [hcnt', hcnt2]
      rw [List.length_cons]
      omega

/-! ### Clean loop run (arbitrary starting count) -/

theorem loop_clean {α : Type} (s : Saver α) (Ln : Nat) (hs : s.maxStoredFiles = (Ln : Int))
    (hL : 1 ≤ Ln) (now : Ts) :
    ∀ c (fs : FS), countValidD fs s.dir = c →
      s.dir ∉ fs.unreadable →
      (∀ n, (s.dir, n) ∉ fs.unremovable) →
      DirOk fs s.dir →
      ∀ fuel, c + 1 ≤ fuel →
      ∃ fs', deleteOldLoop s now fuel fs = .ok fs' ∧
        (∀ f ∈ listDir fs' s.dir, f ∈ listDir fs s.dir) ∧
        DirOk fs' s.dir ∧ fs'.unreadable = fs.unreadable ∧ fs'.unremovable = fs.unremovable := by
  intro c
  induction c using Nat.strong_induction_on with
  | _ c ih =>
    intro fs hc hread hrem hok fuel hfuel
    obtain ⟨fl, rfl⟩ : ∃ fl, fuel = fl + 1 := ⟨fuel - 1, by omega⟩
    by_cases hcase : countValidD fs s.dir < Ln
    · refine ⟨fs, ?_, fun f hf => hf, hok, rfl, rfl⟩
      unfold deleteOldLoop
      rw [loop_no_evict s Ln hs now fs fl hread hcase]
    · obtain ⟨o, fs1, hget, hone, hrm, hld, hcnt, hok1, hur1, hum1, hsub1⟩ :=
        evict_once s now fs hread hrem hok (by omega)
      have hdec : countValidD fs1 s.dir < c := by omega
      obtain ⟨fs', hloop', hsub', hok', hur', hum'⟩ :=
        ih (countValidD fs1 s.dir) hdec fs1 rfl (by rw [hur1]; exact hread)
          (by rw [hum1]; exact hrem) hok1 fl (by omega)
      refine ⟨fs', ?_, fun f hf => hsub1 f (hsub' f hf), hok',
        by rw [hur', hur1], by rw [hum', hum1]⟩
      unfold deleteOldLoop
      rw [deleteOldLoopL, hget]
      dsimp only
      rw [hs, if_pos (by rw [Nat.cast_le]; omega), if_neg hone, hrm]
      dsimp only
      exact hloop'

/-! ### `LoadLatest` characterizations -/

theorem validEntry_none_of_inv {f : FSFile}
    (hinv : validKey f.name = none ∨ f.isRegular = false) : validEntry f = none := by
  unfold validEntry
  rcases hinv with h | h
  · split <;> simp [h]
  · rw [h]
    rfl

theorem loadLatest_of_fresh {α : Type} (s : Saver α) (fs1 : FS) (now : Ts) (bs : List Nat)
    (v : α)
    (hread1 : s.dir ∉ fs1.unreadable)
    (hvalid : now.valid) (hz : zeroTs.key < now.key)
    (hb1 : ∀ f ∈ listDir fs1 s.dir, ∀ k, validKey f.name = some k → k < now.key)
    (hdec : s.codec.dec bs = some v) :
    LoadLatest s (createFile fs1 s.dir (saveName s now) bs) = .ok v := by
  have hfresh : ∀ f ∈ listDir fs1 s.dir, f.name ≠ saveName s now :=
    fresh_name s now hvalid _ hb1
  rw [createFile_fresh fs1 s.dir (saveName s now) bs hfresh]
  set nf : FSFile := ⟨s.dir, saveName s now, true, bs⟩ with hnf
  set fs2 : FS := { fs1 with files := fs1.files ++ [nf] } with hfs2
  have hld2 : listDir fs2 s.dir = listDir fs1 s.dir ++ [nf] :=
    listDir_append_file fs1 s.dir nf rfl
  have hvnew : validEntry nf = some now.key := by
    unfold validEntry
    rw [hnf]
    dsimp only
    rw [if_pos rfl]
    exact validKey_saveName s now hvalid
  have hmax : ∀ g ∈ listDir fs1 s.dir, ∀ k, validEntry g = some k → k < now.key := by
    intro g hg k hk
    exact hb1 g hg k (validEntry_some.mp hk).2
  have hfold := lateFold_max (listDir fs1 s.dir) nf now.key hvnew hmax hz
  unfold LoadLatest readDir
  rw [if_neg (show s.dir ∉ fs2.unreadable from hread1)]
  dsimp only
  rw [if_neg (by rw [hld2]; simp)]
  rw [hld2, hfold]
  dsimp only
  rw [if_neg (validKey_ne_empty (validKey_saveName s now hvalid))]
  have hopen : openFile fs2 s.dir (saveName s now) = .ok bs := by
    unfold openFile
    rw [hfs2]
    dsimp only
    rw [List.find?_append]
    have h1 : fs1.files.find? (fun f => f.fdir == s.dir && f.name == saveName s now) = none := by
      rw [List.find?_eq_none]
      intro x hx hb
      rw [Bool.and_eq_true] at hb
      have hxd : x.fdir = s.dir := beq_iff_eq.mp hb.1
      have hxn : x.name = saveName s now := beq_iff_eq.mp hb.2
      exact hfresh x (List.mem_filter.mpr ⟨hx, beq_iff_eq.mpr hxd⟩) hxn
    rw [h1]
    simp
  rw [hopen]
  dsimp only
  rw [hdec]

theorem loadLatest_sel {α : Type} (s : Saver α) (fs : FS) (v : α)
    (h : LoadLatest s fs = .ok v)
    (hnd : ((listDir fs s.dir).map (fun g => g.name)).Nodup) :
    ∃ g ∈ listDir fs s.dir, g.isRegular = true ∧ (validEntry g).isSome = true ∧
      s.codec.dec g.content = some v := by
  unfold LoadLatest at h
  cases hr : readDir fs s.dir with
  | error e => rw [hr] at h; exact absurd h (by simp)
  | ok files =>
    rw [hr] at h
    have hfiles : files = listDir fs s.dir := by
      unfold readDir at hr
      split at hr
      · exact absurd hr (by simp)
      · injection hr with he; exact he.symm
    subst hfiles
    dsimp only at h
    by_cases hlen : (listDir fs s.dir).length = 0
    · rw [if_pos hlen] at h; exact absurd h (by simp)
    rw [if_neg hlen] at h
    by_cases hone : ((listDir fs s.dir).foldl latestStep ("", zeroTs.key)).1 = ""
    · rw [if_pos hone] at h; exact absurd h (by simp)
    rw [if_neg hone] at h
    obtain ⟨i1, i2, i3⟩ := lateFold_go (listDir fs s.dir) ("", zeroTs.key)
    rcases i3 with heq | ⟨f', hf', hve', hnm', hgt'⟩
    · rw [heq] at hone; exact absurd rfl hone
    cases hop : openFile fs s.dir ((listDir fs s.dir).foldl latestStep ("", zeroTs.key)).1 with
    | error e => rw [hop] at h; exact absurd h (by simp)
    | ok bs =>
      rw [hop] at h
      dsimp only at h
      cases hdc : s.codec.dec bs with
      | none => rw [hdc] at h; exact absurd h (by simp)
      | some w =>
        rw [hdc] at h
        injection h with hw
        subst hw
        unfold openFile at hop
        cases hfind : fs.files.find? (fun f => f.fdir == s.dir &&
            f.name == ((listDir fs s.dir).foldl latestStep ("", zeroTs.key)).1) with
        | none => rw [hfind] at hop; exact absurd hop (by simp)
        | some gf =>
          rw [hfind] at hop
          injection hop with hbs
          have hgfm : gf ∈ fs.files := List.mem_of_find?_eq_some hfind
          have hgfp := List.find?_some hfind
          rw [Bool.and_eq_true] at hgfp
          have hgfd : gf ∈ listDir fs s.dir := List.mem_filter.mpr ⟨hgfm, hgfp.1⟩
          have hgfn : gf.name = f'.name := by
            rw [beq_iff_eq.mp hgfp.2, hnm']
          have hgf : gf = f' := by
            have hinj := List.inj_on_of_nodup_map hnd
            exact hinj hgfd hf' hgfn
          refine ⟨gf, hgfd, ?_, ?_, ?_⟩
          · rw [hgf]
            exact (validEntry_some.mp hve').1
          · rw [hgf, hve']
            rfl
          · rw [hbs]
            exact hdc

theorem loadLatest_err {α : Type} (s : Saver α) (fs : FS) (hread : s.dir ∉ fs.unreadable) :
    (LoadLatest s fs = .error .noSaveFiles ↔ listDir fs s.dir = []) ∧
    (LoadLatest s fs = .error .noValidSaveFiles ↔
      (listDir fs s.dir ≠ [] ∧
        ∀ g ∈ listDir fs s.dir, ∀ k, validEntry g = some k → k ≤ zeroTs.key)) := by
  unfold LoadLatest readDir
  rw [if_neg hread]
  dsimp only
  by_cases hlen : (listDir fs s.dir).length = 0
  · rw [if_pos hlen]
    have hnil : listDir fs s.dir = [] := List.length_eq_zero.mp hlen
    constructor
    · simp [hnil]
    · constructor
      · intro hcc
        exact absurd hcc (by simp)
      · intro ⟨hne, _⟩
        exact absurd hnil hne
  · rw [if_neg hlen]
    have hne : listDir fs s.dir ≠ [] := by
      intro hcc
      rw [hcc] at hlen
      exact hlen rfl
    by_cases hone : ((listDir fs s.dir).foldl latestStep ("", zeroTs.key)).1 = ""
    · rw [if_pos hone]
      constructor
      · constructor
        · intro hcc; exact absurd hcc (by simp)
        · intro hcc; exact absurd hcc hne
      · constructor
        · intro _
          exact ⟨hne, (lateFold_empty_iff (listDir fs s.dir)).mp hone⟩
        · intro _; rfl
    · rw [if_neg hone]
      have hno : ¬(listDir fs s.dir ≠ [] ∧
          ∀ g ∈ listDir fs s.dir, ∀ k, validEntry g = some k → k ≤ zeroTs.key) := by
        intro ⟨_, hall⟩
        exact hone ((lateFold_empty_iff (listDir fs s.dir)).mpr hall)
      cases hop : openFile fs s.dir ((listDir fs s.dir).foldl latestStep ("", zeroTs.key)).1 with
      | error e =>
        have heq : e = Err.openFailed := by
          unfold openFile at hop
          split at hop
          · exact absurd hop (by simp)
          · injection hop with he; exact he.symm
        subst heq
        constructor
        · constructor
          · intro hcc; injection hcc with he; exact absurd he (by simp)
          · intro hcc; exact absurd hcc hne
        · constructor
          · intro hcc; injection hcc with he; exact absurd he (by simp)
          · intro hcc; exact absurd hcc hno
      | ok bs =>
        dsimp only
        cases hdc : s.codec.dec bs with
        | none =>
          constructor
          · constructor
            · intro hcc; injection hcc with he; exact absurd he (by simp)
            · intro hcc; exact absurd hcc hne
          · constructor
            · intro hcc; injection hcc with he; exact absurd he (by simp)
            · intro hcc; exact absurd hcc hno
        | some w =>
          constructor
          · constructor
            · intro hcc; exact absurd hcc (by simp)
            · intro hcc; exact absurd hcc hne
          · constructor
            · intro hcc; exact absurd hcc (by simp)
            · intro hcc; exact absurd hcc hno

/-! ### Survival of invalid and non-regular entries -/

theorem remove_keeps {α : Type} (s : Saver α) {fs fs1 : FS} {dRem o : String} {ko : Nat}
    (hrm : removeFile fs dRem o = .ok fs1)
    (hvko : validKey o = some ko)
    (f0 : FSFile) (hf0 : f0 ∈ listDir fs s.dir) (hf0n : f0.name = o)
    (hf0r : f0.isRegular = true)
    (hnd : ((listDir fs s.dir).map (fun g => g.name)).Nodup)
    (f : FSFile) (hf : f ∈ fs.files) (hd : f.fdir = s.dir)
    (hinv : validKey f.name = none ∨ f.isRegular = false) :
    f ∈ fs1.files := by
  rw [(removeFile_ok_inv hrm).1]
  refine List.mem_filter.mpr ⟨hf, ?_⟩
  rw [Bool.not_eq_true']
  rw [Bool.and_eq_false_iff]
  by_cases hn : f.name = o
  · rcases hinv with h | h
    · rw [hn] at h
      rw [h] at hvko
      exact absurd hvko (by simp)
    · by_cases hdr : f.fdir = dRem
      · exfalso
        have hfd : f ∈ listDir fs s.dir := List.mem_filter.mpr ⟨hf, beq_iff_eq.mpr hd⟩
        have hnmeq : f.name = f0.name := by rw [hn, hf0n]
        have := List.inj_on_of_nodup_map hnd hfd hf0 hnmeq
        rw [this] at h
        rw [hf0r] at h
        exact Bool.true_eq_false.mp h
      · exact Or.inl (by rw [beq_eq_false_iff_ne]; exact hdr)
  · exact Or.inr (by rw [beq_eq_false_iff_ne]; exact hn)

theorem nodup_of_filter_names {fs fs1 : FS} {d : String} (p : FSFile → Bool)
    (hfe : fs1.files = fs.files.filter p)
    (hnd : ((listDir fs d).map (fun g => g.name)).Nodup) :
    ((listDir fs1 d).map (fun g => g.name)).Nodup := by
  have hsub : List.Sublist (listDir fs1 d) (listDir fs d) := by
    unfold listDir
    rw [hfe, filter_swap]
    exact List.filter_sublist _
  exact (hsub.map _).nodup hnd

theorem loop_keeps {α : Type} (s : Saver α) (now : Ts) : ∀ (fuel : Nat) (fs : FS)
    (f : FSFile), f ∈ fs.files → f.fdir = s.dir →
    (validKey f.name = none ∨ f.isRegular = false) →
    ((listDir fs s.dir).map (fun g => g.name)).Nodup →
    f ∈ ((deleteOldLoopL s now fuel fs).1.fs).files := by
  intro fuel
  induction fuel with
  | zero => intro fs f hf _ _ _; exact hf
  | succ fuel ih =>
    intro fs f hf hd hinv hnd
    rw [deleteOldLoopL]
    cases hget : getOldestFile s now fs with
    | error e => exact hf
    | ok q =>
      obtain ⟨o, cnt⟩ := q
      dsimp only
      by_cases hcond : s.maxStoredFiles ≤ (cnt : Int)
      · rw [if_pos hcond]
        by_cases hone : o = ""
        · rw [if_pos hone]
          exact ih fs f hf hd hinv hnd
        · rw [if_neg hone]
          obtain ⟨hcnt, hzero, hpos⟩ := getOldest_ok_inv hget
          have hcnt1 : 1 ≤ cnt := by
            rcases Nat.eq_zero_or_pos cnt with h0 | h0
            · exact absurd (hzero h0) hone
            · exact h0
          obtain ⟨f0, hf0, hnm, kf, hve, hvk, _⟩ := hpos hcnt1
          cases hrm : removeFile fs s.dir o with
          | error e => exact hf
          | ok fs1 =>
            dsimp only
            refine ih fs1 f ?_ hd hinv ?_
            · exact remove_keeps s hrm hvk f0 hf0 hnm (validEntry_some.mp hve).1 hnd f hf hd hinv
            · exact nodup_of_filter_names _ (removeFile_ok_inv hrm).1 hnd
      · rw [if_neg hcond]
        exact hf

theorem create_shape (fs : FS) (d n : String) (bs : List Nat) (f : FSFile)
    (hf : f ∈ fs.files) :
    ∃ g ∈ (createFile fs d n bs).files,
      g.fdir = f.fdir ∧ g.name = f.name ∧ g.isRegular = f.isRegular := by
  unfold createFile
  split
  · refine ⟨if f.fdir == d && f.name == n then { f with content := bs } else f, ?_, ?_⟩
    · exact List.mem_map_of_mem _ hf
    · split <;> exact ⟨rfl, rfl, rfl⟩
  · exact ⟨f, List.mem_append_left _ hf, rfl, rfl, rfl⟩

theorem create_keeps (fs : FS) (d n : String) (bs : List Nat) (f : FSFile)
    (hf : f ∈ fs.files) (hne : f.name ≠ n) : f ∈ (createFile fs d n bs).files := by
  unfold createFile
  split
  · have : (if f.fdir == d && f.name == n then { f with content := bs } else f) = f := by
      rw [if_neg ?_]
      rw [Bool.and_eq_true]
      intro ⟨_, hb⟩
      exact hne (beq_iff_eq.mp hb)
    rw [← this]
    exact List.mem_map_of_mem _ hf
  · exact List.mem_append_left _ hf

theorem countValid_zero_of_invalid (fs : FS) (d : String)
    (h : ∀ f ∈ listDir fs d, validKey f.name = none) : countValidD fs d = 0 := by
  unfold countValidD countValidL
  rw [List.filter_eq_nil_iff.mpr]
  · rfl
  · intro f hf
    rw [validEntry_none_of_inv (Or.inl (h f hf))]
    simp

/-! ### Concrete material for witnesses -/

deriving instance DecidableEq for Except

/-- A concrete codec over `Nat` whose decode inverts its encode. -/
def natCodec : Codec Nat :=
  ⟨.json, fun n => some [n], fun l => match l with | [n] => some n | _ => none⟩

/-! ### Claim theorems -/

/-- C1: with a retention limit `L ≥ 1` and a sequence of successful `Save`
calls at strictly increasing valid timestamps, starting from a directory
with no valid save files, after the first `k` saves the number of valid
save files equals `min k L` (hence never exceeds `L`), and the eviction
pass that a further `Save` would run first leaves at most `L - 1` files, so
the limit is not exceeded even transiently. -/
theorem retentionBound {α : Type} (s : Saver α) (cwd : String) (Ln : Nat)
    (hs : s.maxStoredFiles = (Ln : Int)) (hL : 1 ≤ Ln)
    (fs0 : FS) (saves : List (Ts × α)) (fuel : Nat) (hfuel : 2 ≤ fuel)
    (hread : s.dir ∉ fs0.unreadable)
    (hrem : ∀ n, (s.dir, n) ∉ fs0.unremovable)
    (hvalid : ∀ p ∈ saves, (p.1).valid)
    (henc : ∀ p ∈ saves, (s.codec.enc p.2).isSome = true)
    (hsorted : saves.Pairwise (fun p q => (p.1).key < (q.1).key))
    (h0 : ∀ f ∈ listDir fs0 s.dir, validKey f.name = none) :
    ∀ k, k ≤ saves.length →
      ∃ fs', runSaves s cwd fuel (saves.take k) fs0 = some fs' ∧
        countValidD fs' s.dir = min k Ln ∧ countValidD fs' s.dir ≤ Ln ∧
        (∀ t', ∃ fsMid, deleteOldLoop s t' fuel fs' = .ok fsMid ∧
          countValidD fsMid s.dir + 1 ≤ Ln) := by
  intro k hk
  have hc0 : countValidD fs0 s.dir = 0 := countValid_zero_of_invalid fs0 s.dir h0
  have hok0 : DirOk fs0 s.dir := by
    constructor
    · intro f hf kk hkk
      rw [h0 f hf] at hkk
      exact absurd hkk (by simp)
    · unfold validFiles
      rw [List.filter_eq_nil_iff.mpr]
      · exact List.Pairwise.nil
      · intro f hf
        rw [validEntry_none_of_inv (Or.inl (h0 f hf))]
        simp
  obtain ⟨fs', hrun, hcnt, hok', hur', hum'⟩ :=
    rs_strong s cwd Ln hs hL fuel hfuel (saves.take k) fs0 hread hrem
      (fun p hp => hvalid p (List.take_subset k saves hp))
      (fun p hp => henc p (List.take_subset k saves hp))
      (List.Pairwise.sublist (List.take_sublist k saves) hsorted)
      (fun f hf kk hkk => absurd hkk (by rw [h0 f hf]; simp))
      hok0 (by omega)
  have hlen : (saves.take k).length = k := by
    rw [List.length_take]
    omega
  rw [hc0, hlen] at hcnt
  refine ⟨fs', hrun, by omega, by omega, ?_⟩
  intro t'
  obtain ⟨fsMid, hloop, hcm, _, _, _, _⟩ :=
    loop_ok s Ln hs hL t' fs' (by rw [hur']; exact hread)
      (fun n => by rw [hum']; exact hrem n) hok' (by omega) fuel hfuel
  exact ⟨fsMid, hloop, by omega⟩

/-- C2: for a value `v` whose encode succeeds and whose decode inverts the
encode, a successful `Save(v)` at an instant later than every valid save
file already in the directory, immediately followed by `LoadLatest`,
succeeds and returns `v`. -/
theorem saveLoadRoundTrip {α : Type} (s : Saver α) (Ln : Nat)
    (hs : s.maxStoredFiles = (Ln : Int)) (now : Ts) (cwd : String) (v : α)
    (bs : List Nat) (fs : FS) (fuel : Nat)
    (henc : s.codec.enc v = some bs) (hdec : s.codec.dec bs = some v)
    (hread : s.dir ∉ fs.unreadable)
    (hrem : ∀ n, (s.dir, n) ∉ fs.unremovable)
    (hok : DirOk fs s.dir)
    (hvalid : now.valid) (hz : zeroTs.key < now.key)
    (hb : ∀ f ∈ listDir fs s.dir, ∀ k, validKey f.name = some k → k < now.key)
    (hfuel : countValidD fs s.dir + 1 ≤ fuel) :
    ∃ fs', Save s now cwd v fuel fs = .ok fs' ∧ LoadLatest s fs' = .ok v := by
  by_cases hL0 : Ln = 0
  · have hLz : ¬(s.maxStoredFiles ≠ 0) := by
      rw [hs, hL0]
      simp
    have hsave : Save s now cwd v fuel fs = .ok (createFile fs s.dir (saveName s now) bs) := by
      unfold Save
      rw [if_neg hLz]
      dsimp only
      rw [henc]
    exact ⟨_, hsave, loadLatest_of_fresh s fs now bs v hread hvalid hz hb hdec⟩
  · have hL : 1 ≤ Ln := by omega
    obtain ⟨fs1, hloop, hsub1, hok1, hur1, hum1⟩ :=
      loop_clean s Ln hs hL now (countValidD fs s.dir) fs rfl hread hrem hok fuel hfuel
    have hLne : s.maxStoredFiles ≠ 0 := by
      rw [hs]
      intro hcc
      have : Ln = 0 := by exact_mod_cast hcc
      omega
    have hsave := Save_ok_of_loop s now cwd v fuel fs fs1 bs hLne hloop henc
    have hb1 : ∀ f ∈ listDir fs1 s.dir, ∀ k, validKey f.name = some k → k < now.key :=
      fun f hf k hkk => hb f (hsub1 f hf) k hkk
    exact ⟨_, hsave,
      loadLatest_of_fresh s fs1 now bs v (by rw [hur1]; exact hread) hvalid hz hb1 hdec⟩

/-- C3: every file the limit-configured eviction loop deletes (each entry of
its deletion log, which records the filesystem state at the moment of the
deletion) is a regular valid save file whose parsed timestamp is minimal
among the valid save files present at that moment; no valid save file with
a strictly smaller timestamp remains when it is deleted. -/
theorem evictionDeletesOldest {α : Type} (s : Saver α) (now : Ts) (fuel : Nat)
    (fs : FS) (fsAt : FS) (nm : String)
    (hmem : (fsAt, nm) ∈ (deleteOldLoopL s now fuel fs).2) :
    ∃ f ∈ listDir fsAt s.dir, f.name = nm ∧ f.isRegular = true ∧
      ∃ kf, validKey nm = some kf ∧
        (∀ g ∈ listDir fsAt s.dir, ∀ kg, validEntry g = some kg → kf ≤ kg) ∧
        ¬∃ g ∈ listDir fsAt s.dir, ∃ kg, validEntry g = some kg ∧ kg < kf := by
  obtain ⟨f, hffm, hnm, kf, hve, hvk, hmin⟩ := log_min s now fuel fs (fsAt, nm) hmem
  refine ⟨f, hffm, hnm, (validEntry_some.mp hve).1, kf, hvk, hmin, ?_⟩
  intro ⟨g, hg, kg, hkg, hlt⟩
  have := hmin g hg kg hkg
  omega

/-- C4: with no retention limit configured, `DeleteOld` passes the bare
filename to the remove call instead of joining it with the managed
directory, so on this state — one valid save file in the managed directory
`/s`, process working directory `/w` — it fails with a remove error and
deletes nothing, instead of deleting the single oldest valid save file
inside the managed directory as documented. -/
theorem deleteOldUnlimitedBug :
    DeleteOld (⟨"/s", 0, natCodec⟩ : Saver Nat) ⟨2024, 1, 2, 12, 0, 0⟩ "/w" 3
        ⟨[⟨"/s", "save_20240101_120000.json", true, [9]⟩], [], []⟩ =
      .err .removeFailed ⟨[⟨"/s", "save_20240101_120000.json", true, [9]⟩], [], []⟩ ∧
    validKey "save_20240101_120000.json" = some (Ts.key ⟨2024, 1, 1, 12, 0, 0⟩) ∧
    countValidD ⟨[⟨"/s", "save_20240101_120000.json", true, [9]⟩], [], []⟩ "/s" = 1 := by
  decide

/-- C5 counterexample: a state on which `DeleteOld` (invoked with a
retention limit configured, as `Save` invokes it) fails with a remove
error, yet `Save` on the same state returns success — the source calls
`s.DeleteOld()` inside `Save` and discards its result, so the error is not
returned to `Save`'s caller. -/
theorem saveSwallowsDeleteOldError :
    DeleteOld (⟨"/s", 1, natCodec⟩ : Saver Nat) ⟨2024, 1, 2, 12, 0, 0⟩ "/w" 3
        ⟨[⟨"/s", "save_20240101_120000.json", true, [9]⟩], [],
          [("/s", "save_20240101_120000.json")]⟩ =
      .err .removeFailed
        ⟨[⟨"/s", "save_20240101_120000.json", true, [9]⟩], [],
          [("/s", "save_20240101_120000.json")]⟩ ∧
    Save (⟨"/s", 1, natCodec⟩ : Saver Nat) ⟨2024, 1, 2, 12, 0, 0⟩ "/w" 7 3
        ⟨[⟨"/s", "save_20240101_120000.json", true, [9]⟩], [],
          [("/s", "save_20240101_120000.json")]⟩ =
      .ok ⟨[⟨"/s", "save_20240101_120000.json", true, [9]⟩,
            ⟨"/s", "save_20240102_120000.json", true, [7]⟩], [],
          [("/s", "save_20240101_120000.json")]⟩ := by
  decide

/-- C5 amended: every failure inside `DeleteOld` propagates to `DeleteOld`'s
own caller, but `Save` discards the error of the `DeleteOld` call it makes:
whenever that internal call fails, `Save` continues with the state the
failed `DeleteOld` left behind, and succeeds if file creation and encoding
succeed. -/
theorem saveDiscardsDeleteOldErr {α : Type} (s : Saver α) (now : Ts) (cwd : String)
    (v : α) (bs : List Nat) (e : Err) (fs fs1 : FS) (fuel : Nat)
    (hL : s.maxStoredFiles ≠ 0)
    (hdel : DeleteOld s now cwd fuel fs = .err e fs1)
    (henc : s.codec.enc v = some bs) :
    Save s now cwd v fuel fs = .ok (createFile fs1 s.dir (saveName s now) bs) := by
  unfold Save
  rw [if_pos hL, hdel]
  dsimp only
  rw [henc]

/-- C6: with a retention limit `L ≥ 1`, the eviction loop terminates within
`count + 1` iterations (it never runs out of that much fuel); each
iteration whose scan reports `count ≥ L` and whose removal succeeds
strictly decreases the valid-save-file count; and when the directory holds
zero valid save files the loop exits at once without error and without
attempting any deletion. -/
theorem deleteOldTerminates {α : Type} (s : Saver α) (Ln : Nat)
    (hs : s.maxStoredFiles = (Ln : Int)) (hL : 1 ≤ Ln) (now : Ts) (fs : FS) :
    (∀ fuel, countValidD fs s.dir + 1 ≤ fuel →
      ∀ fsX, deleteOldLoop s now fuel fs ≠ .fuelOut fsX) ∧
    (∀ o cnt fs1, getOldestFile s now fs = .ok (o, cnt) → Ln ≤ cnt →
      removeFile fs s.dir o = .ok fs1 →
      countValidD fs1 s.dir < countValidD fs s.dir) ∧
    (countValidD fs s.dir = 0 → s.dir ∉ fs.unreadable →
      ∀ fuel, deleteOldLoop s now (fuel + 1) fs = .ok fs) := by
  refine ⟨?_, ?_, ?_⟩
  · intro fuel hfuel fsX
    exact loop_not_fuelOut s Ln hs hL now (countValidD fs s.dir) fs rfl fuel hfuel fsX
  · intro o cnt fs1 hget hcnt hrm
    obtain ⟨hceq, hzero, hpos⟩ := getOldest_ok_inv hget
    have hcnt1 : 1 ≤ cnt := by omega
    obtain ⟨f0, hf0, hnm, kf, hve, hvk, _⟩ := hpos hcnt1
    have hld : listDir fs1 s.dir = (listDir fs s.dir).filter (fun f => !(f.name == o)) := by
      unfold listDir
      rw [(removeFile_ok_inv hrm).1]
      exact filter_dir_name fs.files s.dir o
    have hx := countValid_remove_lt (listDir fs s.dir) o f0 hf0 hnm (by rw [hve]; rfl)
    unfold countValidD
    rw [hld]
    exact hx
  · intro h0 hread fuel
    unfold deleteOldLoop
    rw [loop_no_evict s Ln hs now fs fuel hread (by omega)]

/-- C7 counterexample: the file `save_00010101_000000.json` is a regular
entry that parses under the filename scheme (its window parses to the zero
`time.Time`), yet `LoadLatest` on a directory containing exactly that file
reports "no valid save files found", because the scan starts from the zero
time and only a strictly later timestamp is ever selected.  So "no valid
save files found" does not occur exactly when no entry parses. -/
theorem loadLatestZeroTimestamp :
    validKey "save_00010101_000000.json" = some zeroTs.key ∧
    LoadLatest (⟨"/s", 0, natCodec⟩ : Saver Nat)
        ⟨[⟨"/s", "save_00010101_000000.json", true, [7]⟩], [], []⟩ =
      .error .noValidSaveFiles := by
  decide

/-- C7 amended: when the directory listing succeeds, `LoadLatest` returns
"no save files found" exactly when the listing is empty, and "no valid save
files found" exactly when the listing is non-empty but no regular entry
parses to a timestamp strictly after the zero `time.Time` (in particular
when no entry parses at all); the two error values stay distinct. -/
theorem loadLatestErrorConditions {α : Type} (s : Saver α) (fs : FS)
    (hread : s.dir ∉ fs.unreadable) :
    (LoadLatest s fs = .error .noSaveFiles ↔ listDir fs s.dir = []) ∧
    (LoadLatest s fs = .error .noValidSaveFiles ↔
      (listDir fs s.dir ≠ [] ∧
        ∀ g ∈ listDir fs s.dir, ∀ k, validEntry g = some k → k ≤ zeroTs.key)) ∧
    Err.noSaveFiles ≠ Err.noValidSaveFiles := by
  refine ⟨(loadLatest_err s fs hread).1, (loadLatest_err s fs hread).2, ?_⟩
  intro h
  exact Err.noConfusion h

/-- C8: `NewLimit` (with path resolution and directory creation succeeding)
fails exactly when the supplied limit is less than 1, and every `Saver` it
returns has retention limit at least 1. -/
theorem newLimitValidation {α : Type} (path : String) (codec : Codec α) (maxFiles : Int) :
    ((∃ e, NewLimit path codec maxFiles true true = .error e) ↔ maxFiles < 1) ∧
    (∀ sv, NewLimit path codec maxFiles true true = .ok sv → 1 ≤ sv.maxStoredFiles) := by
  unfold NewLimit New
  by_cases h : maxFiles < 1
  · rw [if_pos h]
    constructor
    · exact ⟨fun _ => h, fun _ => ⟨.invalidLimit, rfl⟩⟩
    · intro sv hsv
      exact absurd hsv (by simp)
  · rw [if_neg h, if_neg (by simp), if_neg (by simp)]
    dsimp only
    constructor
    · constructor
      · intro ⟨e, he⟩
        exact absurd he (by simp)
      · intro hcc
        exact absurd hcc h
    · intro sv hsv
      injection hsv with he
      rw [← he]
      dsimp only
      omega

theorem save_shape {α : Type} (s : Saver α) (now : Ts) (cwd : String) (v : α)
    (fuel : Nat) (fs : FS) (f : FSFile)
    (hvalid : now.valid)
    (hDel : f ∈ ((DeleteOld s now cwd fuel fs).fs).files)
    (hfs : f ∈ fs.files) :
    (∃ g ∈ ((Save s now cwd v fuel fs).fs).files,
      g.fdir = f.fdir ∧ g.name = f.name ∧ g.isRegular = f.isRegular) ∧
    (validKey f.name = none → f ∈ ((Save s now cwd v fuel fs).fs).files) := by
  have hnms : ∀ fs1 : FS, f ∈ fs1.files → validKey f.name = none →
      ∀ bs, f ∈ (createFile fs1 s.dir (saveName s now) bs).files := by
    intro fs1 hf1 hnone bs
    refine create_keeps fs1 s.dir (saveName s now) bs f hf1 ?_
    intro he
    rw [he, validKey_saveName s now hvalid] at hnone
    exact Option.noConfusion hnone
  unfold Save
  by_cases hL : s.maxStoredFiles ≠ 0
  · rw [if_pos hL]
    cases hdo : DeleteOld s now cwd fuel fs with
    | fuelOut fs1 =>
      rw [hdo] at hDel
      exact ⟨⟨f, hDel, rfl, rfl, rfl⟩, fun _ => hDel⟩
    | ok fs1 =>
      rw [hdo] at hDel
      dsimp only
      cases henc : s.codec.enc v with
      | some bs =>
        exact ⟨create_shape fs1 s.dir (saveName s now) bs f hDel,
          fun hnone => hnms fs1 hDel hnone bs⟩
      | none =>
        exact ⟨create_shape fs1 s.dir (saveName s now) [] f hDel,
          fun hnone => hnms fs1 hDel hnone []⟩
    | err e fs1 =>
      rw [hdo] at hDel
      dsimp only
      cases henc : s.codec.enc v with
      | some bs =>
        exact ⟨create_shape fs1 s.dir (saveName s now) bs f hDel,
          fun hnone => hnms fs1 hDel hnone bs⟩
      | none =>
        exact ⟨create_shape fs1 s.dir (saveName s now) [] f hDel,
          fun hnone => hnms fs1 hDel hnone []⟩
  · rw [if_neg hL]
    dsimp only
    cases henc : s.codec.enc v with
    | some bs =>
      exact ⟨create_shape fs s.dir (saveName s now) bs f hfs,
        fun hnone => hnms fs hfs hnone bs⟩
    | none =>
      exact ⟨create_shape fs s.dir (saveName s now) [] f hfs,
        fun hnone => hnms fs hfs hnone []⟩

/-- C9: an entry of the managed directory that does not match the naming
scheme, or is not a regular file, is never deleted by `DeleteOld` (either
branch) or by `Save`: it survives `DeleteOld` unchanged, survives `Save` as
an entry of the same directory, name and kind (unchanged whenever its name
does not parse), and `LoadLatest` never selects it — any value `LoadLatest`
returns was decoded from some other, regular, valid save file. -/
theorem invalidFileImmunity {α : Type} (s : Saver α) (now : Ts) (cwd : String)
    (fuel : Nat) (fs : FS) (f : FSFile) (v : α)
    (hvalid : now.valid)
    (hnd : ((listDir fs s.dir).map (fun g => g.name)).Nodup)
    (hf : f ∈ fs.files) (hd : f.fdir = s.dir)
    (hinv : validKey f.name = none ∨ f.isRegular = false) :
    f ∈ ((DeleteOld s now cwd fuel fs).fs).files ∧
    (∃ g ∈ ((Save s now cwd v fuel fs).fs).files,
      g.fdir = f.fdir ∧ g.name = f.name ∧ g.isRegular = f.isRegular) ∧
    (validKey f.name = none → f ∈ ((Save s now cwd v fuel fs).fs).files) ∧
    (∀ w, LoadLatest s fs = .ok w →
      ∃ g ∈ listDir fs s.dir, g ≠ f ∧ g.isRegular = true ∧
        (validEntry g).isSome = true ∧ s.codec.dec g.content = some w) := by
  have hDel : f ∈ ((DeleteOld s now cwd fuel fs).fs).files := by
    unfold DeleteOld
    by_cases hL : s.maxStoredFiles ≠ 0
    · rw [if_pos hL]
      exact loop_keeps s now fuel fs f hf hd hinv hnd
    · rw [if_neg hL]
      cases hget : getOldestFile s now fs with
      | error e => exact hf
      | ok q =>
        obtain ⟨o, cnt⟩ := q
        dsimp only
        by_cases hone : o = ""
        · rw [if_pos hone]
          exact hf
        · rw [if_neg hone]
          obtain ⟨hcnt, hzero, hpos⟩ := getOldest_ok_inv hget
          have hcnt1 : 1 ≤ cnt := by
            rcases Nat.eq_zero_or_pos cnt with h0 | h0
            · exact absurd (hzero h0) hone
            · exact h0
          obtain ⟨f0, hf0, hnm, kf, hve, hvk, _⟩ := hpos hcnt1
          cases hrm : removeFile fs cwd o with
          | error e => exact hf
          | ok fs1 =>
            dsimp only
            exact remove_keeps s hrm hvk f0 hf0 hnm (validEntry_some.mp hve).1 hnd f hf hd hinv
  obtain ⟨hshape, hkeep⟩ := save_shape s now cwd v fuel fs f hvalid hDel hf
  refine ⟨hDel, hshape, hkeep, ?_⟩
  intro w hw
  obtain ⟨g, hg, hreg, hsome, hdecw⟩ := loadLatest_sel s fs w hw hnd
  refine ⟨g, hg, ?_, hreg, hsome, hdecw⟩
  intro hgf
  rw [hgf, validEntry_none_of_inv hinv] at hsome
  exact Bool.noConfusion hsome

/-- C10: filename validation never checks the literal `save_` or the
extension: it depends only on the name's length being at least 20 and on
characters 5 through 19; a regular file named `data-20240101_120000.tmp`
(no `save_`, unrelated extension) is counted by the scan, evicted by the
limit-configured `DeleteOld`, and selected and decoded by `LoadLatest`. -/
theorem validationWindowOnly :
    (∀ n1 n2 : String, 20 ≤ n1.data.length → 20 ≤ n2.data.length →
      (n1.data.drop 5).take 15 = (n2.data.drop 5).take 15 →
      validKey n1 = validKey n2) ∧
    getOldestFile (⟨"/s", 1, natCodec⟩ : Saver Nat) ⟨2024, 1, 2, 0, 0, 0⟩
        ⟨[⟨"/s", "data-20240101_120000.tmp", true, [7]⟩], [], []⟩ =
      .ok ("data-20240101_120000.tmp", 1) ∧
    deleteOldLoop (⟨"/s", 1, natCodec⟩ : Saver Nat) ⟨2024, 1, 2, 0, 0, 0⟩ 3
        ⟨[⟨"/s", "data-20240101_120000.tmp", true, [7]⟩], [], []⟩ =
      .ok ⟨[], [], []⟩ ∧
    LoadLatest (⟨"/s", 0, natCodec⟩ : Saver Nat)
        ⟨[⟨"/s", "data-20240101_120000.tmp", true, [7]⟩], [], []⟩ = .ok 7 := by
  refine ⟨?_, by decide, by decide, by decide⟩
  intro n1 n2 h1 h2 he
  unfold validKey nameTs
  rw [if_neg (by omega), if_neg (by omega), he]

/-! ### Witnesses -/

theorem retentionBound_w :
    (∀ f ∈ listDir (⟨[⟨"/s", "readme.txt", true, []⟩], [], []⟩ : FS) "/s",
      validKey f.name = none) ∧
    (∃ fs', runSaves (⟨"/s", 2, natCodec⟩ : Saver Nat) "/w" 2
        (List.take 3 [((⟨2024, 1, 1, 12, 0, 0⟩ : Ts), 5), (⟨2024, 1, 2, 12, 0, 0⟩, 6),
          (⟨2024, 1, 3, 12, 0, 0⟩, 7)])
        ⟨[⟨"/s", "readme.txt", true, []⟩], [], []⟩ = some fs' ∧
      countValidD fs' "/s" = min 3 2 ∧ countValidD fs' "/s" ≤ 2 ∧
      (∀ t', ∃ fsMid,
        deleteOldLoop (⟨"/s", 2, natCodec⟩ : Saver Nat) t' 2 fs' = .ok fsMid ∧
        countValidD fsMid "/s" + 1 ≤ 2)) :=
  ⟨by decide,
    retentionBound (⟨"/s", 2, natCodec⟩ : Saver Nat) "/w" 2 rfl (by decide)
      ⟨[⟨"/s", "readme.txt", true, []⟩], [], []⟩
      [((⟨2024, 1, 1, 12, 0, 0⟩ : Ts), 5), (⟨2024, 1, 2, 12, 0, 0⟩, 6),
        (⟨2024, 1, 3, 12, 0, 0⟩, 7)]
      2 (by decide) (by decide) (by intro n h; cases h) (by decide) (by decide)
      (by decide) (by decide) 3 (by decide)⟩

theorem saveLoadRoundTrip_w :
    natCodec.dec [7] = some 7 ∧
    (∃ fs', Save (⟨"/s", 1, natCodec⟩ : Saver Nat) ⟨2024, 1, 2, 12, 0, 0⟩ "/w" 7 2
        ⟨[⟨"/s", "save_20240101_120000.json", true, [9]⟩], [], []⟩ = .ok fs' ∧
      LoadLatest (⟨"/s", 1, natCodec⟩ : Saver Nat) fs' = .ok 7) :=
  ⟨rfl,
    saveLoadRoundTrip (⟨"/s", 1, natCodec⟩ : Saver Nat) 1 rfl ⟨2024, 1, 2, 12, 0, 0⟩
      "/w" 7 [7] ⟨[⟨"/s", "save_20240101_120000.json", true, [9]⟩], [], []⟩ 2
      rfl rfl (by decide) (by intro n h; cases h)
      (by
        constructor
        · intro f hf k hk
          have he : listDir (⟨[⟨"/s", "save_20240101_120000.json", true, [9]⟩], [], []⟩ : FS)
              "/s" = [⟨"/s", "save_20240101_120000.json", true, [9]⟩] := by decide
          rw [he] at hf
          rw [List.mem_singleton.mp hf]
        · decide)
      (by decide) (by decide)
      (by
        intro f hf k hk
        have he : listDir (⟨[⟨"/s", "save_20240101_120000.json", true, [9]⟩], [], []⟩ : FS)
            "/s" = [⟨"/s", "save_20240101_120000.json", true, [9]⟩] := by decide
        rw [he] at hf
        rw [List.mem_singleton.mp hf] at hk
        have hv : validKey "save_20240101_120000.json" = some 20240101120000 := by decide
        rw [hv] at hk
        injection hk with hke
        subst hke
        decide)
      (by decide)⟩

theorem evictionDeletesOldest_w :
    ((⟨[⟨"/s", "save_20240101_120000.json", true, [1]⟩,
        ⟨"/s", "save_20240102_120000.json", true, [2]⟩], [], []⟩ : FS),
      "save_20240101_120000.json") ∈
      (deleteOldLoopL (⟨"/s", 1, natCodec⟩ : Saver Nat) ⟨2024, 1, 3, 0, 0, 0⟩ 3
        ⟨[⟨"/s", "save_20240101_120000.json", true, [1]⟩,
          ⟨"/s", "save_20240102_120000.json", true, [2]⟩], [], []⟩).2 ∧
    (∃ f ∈ listDir (⟨[⟨"/s", "save_20240101_120000.json", true, [1]⟩,
        ⟨"/s", "save_20240102_120000.json", true, [2]⟩], [], []⟩ : FS) "/s",
      f.name = "save_20240101_120000.json" ∧ f.isRegular = true ∧
      ∃ kf, validKey "save_20240101_120000.json" = some kf ∧
        (∀ g ∈ listDir (⟨[⟨"/s", "save_20240101_120000.json", true, [1]⟩,
            ⟨"/s", "save_20240102_120000.json", true, [2]⟩], [], []⟩ : FS) "/s",
          ∀ kg, validEntry g = some kg → kf ≤ kg) ∧
        ¬∃ g ∈ listDir (⟨[⟨"/s", "save_20240101_120000.json", true, [1]⟩,
            ⟨"/s", "save_20240102_120000.json", true, [2]⟩], [], []⟩ : FS) "/s",
          ∃ kg, validEntry g = some kg ∧ kg < kf) :=
  ⟨by decide,
    evictionDeletesOldest (⟨"/s", 1, natCodec⟩ : Saver Nat) ⟨2024, 1, 3, 0, 0, 0⟩ 3
      ⟨[⟨"/s", "save_20240101_120000.json", true, [1]⟩,
        ⟨"/s", "save_20240102_120000.json", true, [2]⟩], [], []⟩
      ⟨[⟨"/s", "save_20240101_120000.json", true, [1]⟩,
        ⟨"/s", "save_20240102_120000.json", true, [2]⟩], [], []⟩
      "save_20240101_120000.json" (by decide)⟩

theorem saveDiscardsDeleteOldErr_w :
    DeleteOld (⟨"/s", 1, natCodec⟩ : Saver Nat) ⟨2024, 1, 2, 12, 0, 0⟩ "/w" 3
        ⟨[⟨"/s", "save_20240101_120000.json", true, [9]⟩], [],
          [("/s", "save_20240101_120000.json")]⟩ =
      .err .removeFailed
        ⟨[⟨"/s", "save_20240101_120000.json", true, [9]⟩], [],
          [("/s", "save_20240101_120000.json")]⟩ ∧
    Save (⟨"/s", 1, natCodec⟩ : Saver Nat) ⟨2024, 1, 2, 12, 0, 0⟩ "/w" 7 3
        ⟨[⟨"/s", "save_20240101_120000.json", true, [9]⟩], [],
          [("/s", "save_20240101_120000.json")]⟩ =
      .ok (createFile
        ⟨[⟨"/s", "save_20240101_120000.json", true, [9]⟩], [],
          [("/s", "save_20240101_120000.json")]⟩
        "/s" (saveName (⟨"/s", 1, natCodec⟩ : Saver Nat) ⟨2024, 1, 2, 12, 0, 0⟩) [7]) :=
  ⟨by decide,
    saveDiscardsDeleteOldErr (⟨"/s", 1, natCodec⟩ : Saver Nat) ⟨2024, 1, 2, 12, 0, 0⟩
      "/w" 7 [7] .removeFailed
      ⟨[⟨"/s", "save_20240101_120000.json", true, [9]⟩], [],
        [("/s", "save_20240101_120000.json")]⟩
      ⟨[⟨"/s", "save_20240101_120000.json", true, [9]⟩], [],
        [("/s", "save_20240101_120000.json")]⟩
      3 (by decide) (by decide) rfl⟩

theorem deleteOldTerminates_w :
    ((⟨"/s", 1, natCodec⟩ : Saver Nat).maxStoredFiles = ((1 : Nat) : Int)) ∧
    ((∀ fuel, countValidD ⟨[⟨"/s", "save_20240101_120000.json", true, [9]⟩], [], []⟩ "/s" + 1 ≤ fuel →
      ∀ fsX, deleteOldLoop (⟨"/s", 1, natCodec⟩ : Saver Nat) ⟨2024, 1, 2, 0, 0, 0⟩ fuel
        ⟨[⟨"/s", "save_20240101_120000.json", true, [9]⟩], [], []⟩ ≠ .fuelOut fsX) ∧
    (∀ o cnt fs1, getOldestFile (⟨"/s", 1, natCodec⟩ : Saver Nat) ⟨2024, 1, 2, 0, 0, 0⟩
        ⟨[⟨"/s", "save_20240101_120000.json", true, [9]⟩], [], []⟩ = .ok (o, cnt) →
      1 ≤ cnt →
      removeFile ⟨[⟨"/s", "save_20240101_120000.json", true, [9]⟩], [], []⟩ "/s" o = .ok fs1 →
      countValidD fs1 "/s" <
        countValidD ⟨[⟨"/s", "save_20240101_120000.json", true, [9]⟩], [], []⟩ "/s") ∧
    (countValidD ⟨[⟨"/s", "save_20240101_120000.json", true, [9]⟩], [], []⟩ "/s" = 0 →
      "/s" ∉ ([] : List String) →
      ∀ fuel, deleteOldLoop (⟨"/s", 1, natCodec⟩ : Saver Nat) ⟨2024, 1, 2, 0, 0, 0⟩ (fuel + 1)
        ⟨[⟨"/s", "save_20240101_120000.json", true, [9]⟩], [], []⟩ =
        .ok ⟨[⟨"/s", "save_20240101_120000.json", true, [9]⟩], [], []⟩)) :=
  ⟨rfl,
    deleteOldTerminates (⟨"/s", 1, natCodec⟩ : Saver Nat) 1 rfl (by decide)
      ⟨2024, 1, 2, 0, 0, 0⟩ ⟨[⟨"/s", "save_20240101_120000.json", true, [9]⟩], [], []⟩⟩

theorem loadLatestErrorConditions_w :
    ("/s" ∉ ([] : List String)) ∧
    ((LoadLatest (⟨"/s", 0, natCodec⟩ : Saver Nat) ⟨[⟨"/s", "junk.txt", true, [1]⟩], [], []⟩ =
        .error .noSaveFiles ↔
      listDir (⟨[⟨"/s", "junk.txt", true, [1]⟩], [], []⟩ : FS) "/s" = []) ∧
    (LoadLatest (⟨"/s", 0, natCodec⟩ : Saver Nat) ⟨[⟨"/s", "junk.txt", true, [1]⟩], [], []⟩ =
        .error .noValidSaveFiles ↔
      (listDir (⟨[⟨"/s", "junk.txt", true, [1]⟩], [], []⟩ : FS) "/s" ≠ [] ∧
        ∀ g ∈ listDir (⟨[⟨"/s", "junk.txt", true, [1]⟩], [], []⟩ : FS) "/s",
          ∀ k, validEntry g = some k → k ≤ zeroTs.key)) ∧
    Err.noSaveFiles ≠ Err.noValidSaveFiles) :=
  ⟨by decide,
    loadLatestErrorConditions (⟨"/s", 0, natCodec⟩ : Saver Nat)
      ⟨[⟨"/s", "junk.txt", true, [1]⟩], [], []⟩ (by decide)⟩

theorem newLimitValidation_w :
    ((∃ e, NewLimit "p" natCodec 0 true true = .error e) ↔ (0 : Int) < 1) ∧
    (∀ sv, NewLimit "p" natCodec 0 true true = .ok sv → 1 ≤ sv.maxStoredFiles) :=
  newLimitValidation "p" natCodec 0

theorem invalidFileImmunity_w :
    (validKey "junk.txt" = none ∨
      (⟨"/s", "junk.txt", true, [1]⟩ : FSFile).isRegular = false) ∧
    ((⟨"/s", "junk.txt", true, [1]⟩ : FSFile) ∈
      ((DeleteOld (⟨"/s", 1, natCodec⟩ : Saver Nat) ⟨2024, 1, 2, 12, 0, 0⟩ "/w" 3
        ⟨[⟨"/s", "junk.txt", true, [1]⟩,
          ⟨"/s", "save_20240101_120000.json", true, [7]⟩], [], []⟩).fs).files ∧
    (∃ g ∈ ((Save (⟨"/s", 1, natCodec⟩ : Saver Nat) ⟨2024, 1, 2, 12, 0, 0⟩ "/w" 9 3
        ⟨[⟨"/s", "junk.txt", true, [1]⟩,
          ⟨"/s", "save_20240101_120000.json", true, [7]⟩], [], []⟩).fs).files,
      g.fdir = (⟨"/s", "junk.txt", true, [1]⟩ : FSFile).fdir ∧
      g.name = (⟨"/s", "junk.txt", true, [1]⟩ : FSFile).name ∧
      g.isRegular = (⟨"/s", "junk.txt", true, [1]⟩ : FSFile).isRegular) ∧
    (validKey "junk.txt" = none →
      (⟨"/s", "junk.txt", true, [1]⟩ : FSFile) ∈
        ((Save (⟨"/s", 1, natCodec⟩ : Saver Nat) ⟨2024, 1, 2, 12, 0, 0⟩ "/w" 9 3
          ⟨[⟨"/s", "junk.txt", true, [1]⟩,
            ⟨"/s", "save_20240101_120000.json", true, [7]⟩], [], []⟩).fs).files) ∧
    (∀ w, LoadLatest (⟨"/s", 1, natCodec⟩ : Saver Nat)
        ⟨[⟨"/s", "junk.txt", true, [1]⟩,
          ⟨"/s", "save_20240101_120000.json", true, [7]⟩], [], []⟩ = .ok w →
      ∃ g ∈ listDir (⟨[⟨"/s", "junk.txt", true, [1]⟩,
          ⟨"/s", "save_20240101_120000.json", true, [7]⟩], [], []⟩ : FS) "/s",
        g ≠ (⟨"/s", "junk.txt", true, [1]⟩ : FSFile) ∧ g.isRegular = true ∧
        (validEntry g).isSome = true ∧ natCodec.dec g.content = some w)) :=
  ⟨by decide,
    invalidFileImmunity (⟨"/s", 1, natCodec⟩ : Saver Nat) ⟨2024, 1, 2, 12, 0, 0⟩ "/w" 3
      ⟨[⟨"/s", "junk.txt", true, [1]⟩,
        ⟨"/s", "save_20240101_120000.json", true, [7]⟩], [], []⟩
      ⟨"/s", "junk.txt", true, [1]⟩ 9 (by decide) (by decide) (by decide) rfl
      (by decide)⟩

theorem validationWindowOnly_w :
    (20 ≤ ("xxxxx20240101_120000" : String).data.length) ∧
    validKey "xxxxx20240101_120000" = validKey "save_20240101_120000" :=
  ⟨by decide,
    validationWindowOnly.1 "xxxxx20240101_120000" "save_20240101_120000"
      (by decide) (by decide) (by decide)⟩

end SaveFile
